import Mathlib

/-!
Verification of the moniker-service core: a shallow embedding of the
moniker grammar parser/serializer (`moniker/parser.py`, `moniker/types.py`),
the ownership merge rule (`catalog/types.py`) and the version dialects
(`dialect/snowflake.py`, `dialect/oracle.py`, `dialect/rest.py`),
together with theorems settling the specification claims.

Python strings are modelled as `List Char`; Python `int` as `Int`;
`None`-able values as `Option`; raising code as `Except`.
-/

namespace MonikerSvc

/-- Python strings are modelled as lists of characters. -/
abbrev Str := List Char

/-- Characters of a Lean string literal, used to write concrete inputs. -/
def chars (x : String) : Str := x.data

/-! ## Character classes (the regex character classes used by the parser) -/

/-- The regex class `[a-zA-Z0-9]`. -/
def isAlnumA (c : Char) : Bool :=
  ('a' ≤ c && c ≤ 'z') || ('A' ≤ c && c ≤ 'Z') || ('0' ≤ c && c ≤ '9')

/-- The regex class `[a-zA-Z]`. -/
def isLetterA (c : Char) : Bool :=
  ('a' ≤ c && c ≤ 'z') || ('A' ≤ c && c ≤ 'Z')

/-- The regex class `\d` (ASCII digits, as matched in the parser's patterns). -/
def isDigitA (c : Char) : Bool :=
  '0' ≤ c && c ≤ '9'

/-- The regex class `[a-zA-Z0-9_.\-]` (characters of a path segment tail). -/
def isSegChar (c : Char) : Bool :=
  isAlnumA c || c = '_' || c = '.' || c = '-'

/-- The regex class `[a-zA-Z0-9_\-]` (characters of a namespace tail). -/
def isNsChar (c : Char) : Bool :=
  isAlnumA c || c = '_' || c = '-'

/-- Python `str.isspace()`, the exact character set `str.strip()` removes:
the ASCII whitespace 0x09-0x0D and space, the information separators
0x1C-0x1F, NEL 0x85, NBSP 0xA0, and the Unicode space characters U+1680,
U+2000-U+200A, U+2028, U+2029, U+202F, U+205F and U+3000. -/
def isSpacePy (c : Char) : Bool :=
  (9 ≤ c.toNat && c.toNat ≤ 13) || c.toNat = 32 ||
  (28 ≤ c.toNat && c.toNat ≤ 31) || c.toNat = 0x85 || c.toNat = 0xa0 ||
  c.toNat = 0x1680 || (0x2000 ≤ c.toNat && c.toNat ≤ 0x200a) ||
  c.toNat = 0x2028 || c.toNat = 0x2029 || c.toNat = 0x202f ||
  c.toNat = 0x205f || c.toNat = 0x3000

/-! ## Python string primitives -/

/-- Python `s.strip()` restricted to a character predicate. -/
def pyStripWith (p : Char → Bool) (l : Str) : Str :=
  ((l.dropWhile p).reverse.dropWhile p).reverse

/-- Python `s.strip()` (strip whitespace from both ends). -/
def pyStrip (l : Str) : Str := pyStripWith isSpacePy l

/-- Python `s.strip("/")`. -/
def stripSlash (l : Str) : Str := pyStripWith (fun c => c = '/') l

/-- Python `s.find(c)`: index of the first occurrence, `None` for `-1`. -/
def pyFindChar (l : Str) (c : Char) : Option Nat :=
  match l with
  | [] => none
  | a :: t => if a = c then some 0 else (pyFindChar t c).map (· + 1)

/-- Python `s.rfind(c)`: index of the last occurrence, `None` for `-1`. -/
def pyRfindChar (l : Str) (c : Char) : Option Nat :=
  match l with
  | [] => none
  | a :: t =>
    match pyRfindChar t c with
    | some i => some (i + 1)
    | none => if a = c then some 0 else none

/-- Python `s.split(sep, 1)` at the first occurrence of a character,
returned as `(before, after)`; `none` when the character is absent. -/
def splitFirst (c : Char) : Str → Option (Str × Str)
  | [] => none
  | a :: t =>
    if a = c then some ([], t)
    else (splitFirst c t).map (fun p => (a :: p.1, p.2))

/-- Python `s.split(sep)` on a single-character separator
(`"".split(sep) = [""]`, as in Python). -/
def splitOnChar (sep : Char) : Str → List Str
  | [] => [[]]
  | c :: t =>
    let r := splitOnChar sep t
    if c = sep then [] :: r
    else
      match r with
      | h :: t2 => (c :: h) :: t2
      | [] => [[c]]

/-- Python `sep.join(parts)` for a single-character separator. -/
def joinSep (sep : Char) : List Str → Str
  | [] => []
  | [x] => x
  | x :: xs => x ++ sep :: joinSep sep xs

/-- Python substring membership `pat in s` (used only for `"://" in s`). -/
def hasSub (pat : Str) : Str → Bool
  | [] => pat.isPrefixOf []
  | c :: t => pat.isPrefixOf (c :: t) || hasSub pat t

/-- Python `s.rsplit("/v", 1)`: split at the last occurrence of the two
character pattern `/v`; `none` when the pattern does not occur (this also
decides `"/v" in s`). -/
def rsplitV : Str → Option (Str × Str)
  | [] => none
  | c :: t =>
    match rsplitV t with
    | some p => some (c :: p.1, p.2)
    | none => if c = '/' ∧ t.head? = some 'v' then some ([], t.tail) else none

/-! ## Decimal numbers (Python `str(int)` and `int(str)`) -/

/-- The decimal digit character for a value below ten. -/
def digitChar (n : Nat) : Char := Char.ofNat (48 + n)

/-- Decimal digits with explicit fuel (structural recursion keeps the
function kernel-reducible; the fuel is always sufficient). -/
def natDigitsFuel : Nat → Nat → Str
  | 0, _ => []
  | fuel + 1, n =>
    if n < 10 then [digitChar n]
    else natDigitsFuel fuel (n / 10) ++ [digitChar (n % 10)]

/-- Decimal digits of a natural number, most significant first. -/
def natDigits (n : Nat) : Str := natDigitsFuel (n + 1) n

/-- Python `str(i)` for an `int`. -/
def intStr (i : Int) : Str :=
  if i < 0 then '-' :: natDigits (-i).toNat else natDigits i.toNat

/-- Python `int(s)` on a string of decimal digits. -/
def natOfDigits (l : Str) : Nat :=
  l.foldl (fun acc c => 10 * acc + (c.toNat - 48)) 0

/-- Equality on `Except` results is decidable (needed to evaluate the
embedded functions on concrete inputs). -/
instance instDecEqExcept {e a : Type} [DecidableEq e] [DecidableEq a] :
    DecidableEq (Except e a)
  | .error x, .error y =>
    if h : x = y then .isTrue (by rw [h]) else .isFalse (fun k => by cases k; exact h rfl)
  | .error _, .ok _ => .isFalse (fun k => by cases k)
  | .ok _, .error _ => .isFalse (fun k => by cases k)
  | .ok x, .ok y =>
    if h : x = y then .isTrue (by rw [h]) else .isFalse (fun k => by cases k; exact h rfl)

/-! ## Ownership (`catalog/types.py`) -/

/-- `Ownership`: six independent optional string slots
(`accountable_owner, data_specialist, support_channel, adop, ads, adal`). -/
structure Ownership where
  accountable_owner : Option Str := none
  data_specialist : Option Str := none
  support_channel : Option Str := none
  adop : Option Str := none
  ads : Option Str := none
  adal : Option Str := none
deriving DecidableEq, Repr

/-- Python `a or b` on `str | None` values: the first operand when it is
truthy (not `None` and not the empty string), otherwise the second. -/
def pyOrStr (a b : Option Str) : Option Str :=
  match a with
  | some s => if s = [] then b else some s
  | none => b

/-- `Ownership.merge_with_parent`: child values win per field via Python
`or`, parent values fill the rest. -/
def Ownership.merge_with_parent (o p : Ownership) : Ownership :=
  { accountable_owner := pyOrStr o.accountable_owner p.accountable_owner
    data_specialist := pyOrStr o.data_specialist p.data_specialist
    support_channel := pyOrStr o.support_channel p.support_channel
    adop := pyOrStr o.adop p.adop
    ads := pyOrStr o.ads p.ads
    adal := pyOrStr o.adal p.adal }

/-- Python truthiness of a `str | None` slot: set and non-empty. -/
def isTruthyStr (a : Option Str) : Bool :=
  match a with
  | some s => !(s.isEmpty)
  | none => false

/-! ## Dialects (`dialect/snowflake.py`, `dialect/oracle.py`, `dialect/rest.py`) -/

/-- Python `s.upper()` (ASCII case mapping; the unit strings are ASCII). -/
def upperPy (s : Str) : Str := s.map Char.toUpper

/-- `SnowflakeDialect.lookback_start`: a `DATEADD` expression; the unit map
defaults to `DAY` for unrecognized units. -/
def snowflakeLookback (value : Int) (unit : Str) : Str :=
  let u := upperPy unit
  let sqlUnit : Str :=
    if u = chars "Y" then chars "YEAR"
    else if u = chars "M" then chars "MONTH"
    else if u = chars "W" then chars "WEEK"
    else if u = chars "D" then chars "DAY"
    else chars "DAY"
  chars "DATEADD('" ++ sqlUnit ++ chars "', -" ++ intStr value ++ chars ", CURRENT_DATE())"

/-- `OracleDialect.lookback_start`: `ADD_MONTHS` for years (times 12) and
months, `SYSDATE - n` for weeks (times 7) and days (the default). -/
def oracleLookback (value : Int) (unit : Str) : Str :=
  let u := upperPy unit
  if u = chars "Y" then
    chars "ADD_MONTHS(SYSDATE, -" ++ intStr (value * 12) ++ chars ")"
  else if u = chars "M" then
    chars "ADD_MONTHS(SYSDATE, -" ++ intStr value ++ chars ")"
  else if u = chars "W" then
    chars "SYSDATE - " ++ intStr (value * 7)
  else
    chars "SYSDATE - " ++ intStr value

/-! ## Query-string decoding (`urllib.parse.parse_qs` with
`keep_blank_values=True`, as called by `parse_moniker`) -/

/-- Value of a hexadecimal digit. -/
def hexVal (c : Char) : Option Nat :=
  if '0' ≤ c && c ≤ '9' then some (c.toNat - 48)
  else if 'a' ≤ c && c ≤ 'f' then some (c.toNat - 87)
  else if 'A' ≤ c && c ≤ 'F' then some (c.toNat - 55)
  else none

/-- Token stream for `urllib.parse.unquote`: ASCII characters and decoded
`%XX` escapes become bytes; characters above ASCII pass through (they sit
outside the ASCII chunks that `unquote` byte-decodes). -/
inductive QTok where
  | byte (b : Nat)
  | uchar (c : Char)
deriving DecidableEq, Repr

/-- Tokenize for `unquote` (with explicit fuel for structural recursion;
the fuel, instantiated to the length, is always sufficient): a `%` followed
by two hex digits is a byte; an invalid `%` stays literal; ASCII characters
become their byte. -/
def unqTokensF : Nat → Str → List QTok
  | 0, _ => []
  | _, [] => []
  | fuel + 1, c :: t =>
    if c = '%' then
      match t with
      | a :: b :: t2 =>
        match hexVal a, hexVal b with
        | some x, some y => .byte (16 * x + y) :: unqTokensF fuel t2
        | _, _ => .byte 37 :: unqTokensF fuel (a :: b :: t2)
      | _ => .byte 37 :: unqTokensF fuel t
    else if c.toNat < 128 then .byte c.toNat :: unqTokensF fuel t
    else .uchar c :: unqTokensF fuel t

/-- Tokenize for `unquote`. -/
def unqTokens (l : Str) : List QTok := unqTokensF l.length l

/-- The U+FFFD replacement character (`errors="replace"`). -/
def replChar : Char := Char.ofNat 0xFFFD

/-- Whether a byte is a UTF-8 continuation byte in a given range. -/
def contIn (lo hi b : Nat) : Bool := lo ≤ b && b ≤ hi

/-- UTF-8 decoding of the byte runs with `errors="replace"` (maximal
subparts replaced by U+FFFD), pass-through characters kept; explicit fuel
for structural recursion, always sufficient when it bounds the length. -/
def decTokensF : Nat → List QTok → Str
  | 0, _ => []
  | _, [] => []
  | fuel + 1, .uchar c :: t => c :: decTokensF fuel t
  | fuel + 1, .byte b :: t =>
    if b < 0x80 then Char.ofNat b :: decTokensF fuel t
    else if contIn 0xC2 0xDF b then
      match t with
      | .byte c1 :: t2 =>
        if contIn 0x80 0xBF c1 then
          Char.ofNat ((b - 0xC0) * 0x40 + (c1 - 0x80)) :: decTokensF fuel t2
        else replChar :: decTokensF fuel t
      | _ => replChar :: decTokensF fuel t
    else if contIn 0xE0 0xEF b then
      let lo1 := if b = 0xE0 then 0xA0 else 0x80
      let hi1 := if b = 0xED then 0x9F else 0xBF
      match t with
      | .byte c1 :: t2 =>
        if contIn lo1 hi1 c1 then
          match t2 with
          | .byte c2 :: t3 =>
            if contIn 0x80 0xBF c2 then
              Char.ofNat ((b - 0xE0) * 0x1000 + (c1 - 0x80) * 0x40 + (c2 - 0x80)) ::
                decTokensF fuel t3
            else replChar :: decTokensF fuel t2
          | _ => replChar :: decTokensF fuel t2
        else replChar :: decTokensF fuel t
      | _ => replChar :: decTokensF fuel t
    else if contIn 0xF0 0xF4 b then
      let lo1 := if b = 0xF0 then 0x90 else 0x80
      let hi1 := if b = 0xF4 then 0x8F else 0xBF
      match t with
      | .byte c1 :: t2 =>
        if contIn lo1 hi1 c1 then
          match t2 with
          | .byte c2 :: t3 =>
            if contIn 0x80 0xBF c2 then
              match t3 with
              | .byte c3 :: t4 =>
                if contIn 0x80 0xBF c3 then
                  Char.ofNat ((b - 0xF0) * 0x40000 + (c1 - 0x80) * 0x1000 +
                    (c2 - 0x80) * 0x40 + (c3 - 0x80)) :: decTokensF fuel t4
                else replChar :: decTokensF fuel t3
              | _ => replChar :: decTokensF fuel t3
            else replChar :: decTokensF fuel t2
          | _ => replChar :: decTokensF fuel t2
        else replChar :: decTokensF fuel t
      | _ => replChar :: decTokensF fuel t
    else replChar :: decTokensF fuel t

/-- UTF-8 decoding of a token list. -/
def decTokens (l : List QTok) : Str := decTokensF l.length l

/-- `urllib.parse.unquote` with the default UTF-8 / replace handling, after
`parse_qsl`'s replacement of `+` by a space. -/
def qsUnquote (s : Str) : Str :=
  decTokens (unqTokens (s.map (fun c => if c = '+' then ' ' else c)))

/-- One `key=value` chunk of a query string (`keep_blank_values=True`:
a chunk without `=` gets an empty value). -/
def qsPair (chunk : Str) : Str × Str :=
  match splitFirst '=' chunk with
  | some p => (qsUnquote p.1, qsUnquote p.2)
  | none => (qsUnquote chunk, [])

/-- `parse_qsl`: split on `&`, drop empty chunks, decode each pair. -/
def parseQsl (qs : Str) : List (Str × Str) :=
  ((splitOnChar '&' qs).filter (fun c => !c.isEmpty)).map qsPair

/-- Keep the first pair per key, in first-occurrence order (the dict built
by `parse_qs` combined with `parse_moniker` taking `values[0]`). -/
def dedupFirstKeys : List (Str × Str) → List Str → List (Str × Str)
  | [], _ => []
  | p :: t, seen =>
    if seen.contains p.1 then dedupFirstKeys t seen
    else p :: dedupFirstKeys t (p.1 :: seen)

/-- The query parameters `parse_moniker` extracts from a query string. -/
def parseQsFirst (qs : Str) : List (Str × Str) :=
  dedupFirstKeys (parseQsl qs) []

/-! ## Moniker data model (`moniker/types.py`) -/

/-- `MonikerPath`: an ordered tuple of path segments. -/
structure MonikerPath where
  segments : List Str
deriving DecidableEq, Repr

/-- `Moniker`: path plus optional namespace (`nspace` here, since
`namespace` is a Lean keyword), version, revision and query parameters
(an insertion-ordered string-to-string mapping). -/
structure Moniker where
  path : MonikerPath
  nspace : Option Str := none
  version : Option Str := none
  revision : Option Int := none
  params : List (Str × Str) := []
deriving DecidableEq, Repr

/-! ## Grammar validators (`moniker/parser.py` regexes)

Python `re.match` with a pattern ending in `$` also matches when the text
has a single trailing newline after the pattern body; the validators
reproduce that. -/

/-- `SEGMENT_PATTERN` = `^[a-zA-Z0-9][a-zA-Z0-9_.\-]*$`. -/
def segMatch (s : Str) : Bool :=
  match s with
  | [] => false
  | c :: t =>
    isAlnumA c &&
      (t.all isSegChar || (t.getLast? = some '\n' && t.dropLast.all isSegChar))

/-- `validate_segment`: nonempty, at most 128 characters, matches the
segment pattern. -/
def validateSegment (s : Str) : Bool :=
  !s.isEmpty && s.length ≤ 128 && segMatch s

/-- `NAMESPACE_PATTERN` = `^[a-zA-Z][a-zA-Z0-9_\-]*$`. -/
def nsMatch (s : Str) : Bool :=
  match s with
  | [] => false
  | c :: t =>
    isLetterA c &&
      (t.all isNsChar || (t.getLast? = some '\n' && t.dropLast.all isNsChar))

/-- `validate_namespace`: nonempty, at most 64 characters, matches the
namespace pattern. -/
def validateNamespace (s : Str) : Bool :=
  !s.isEmpty && s.length ≤ 64 && nsMatch s

/-- `VERSION_PATTERN` = `^[a-zA-Z0-9]+$`. -/
def versionMatch (s : Str) : Bool :=
  match s with
  | [] => false
  | _ =>
    s.all isAlnumA ||
      (s.getLast? = some '\n' && !s.dropLast.isEmpty && s.dropLast.all isAlnumA)

/-! ## Parsing (`moniker/parser.py`) -/

/-- `parse_path`: root for empty or `/`; otherwise strip surrounding
slashes, split on `/`, and (when validating) reject the first segment
failing `validate_segment`. -/
def parsePath (p : Str) (validate : Bool) : Except Str MonikerPath :=
  if p.isEmpty || p = ['/'] then .ok ⟨[]⟩
  else if (stripSlash p).isEmpty then .ok ⟨[]⟩
  else if validate then
    match (splitOnChar '/' (stripSlash p)).find? (fun g => !validateSegment g) with
    | some g => .error (chars "Invalid path segment: " ++ g)
    | none => .ok ⟨splitOnChar '/' (stripSlash p)⟩
  else .ok ⟨splitOnChar '/' (stripSlash p)⟩

/-- Scheme handling of `parse_moniker`: for a `moniker://` prefix the rest
is split as by `urlparse` (tab/CR/LF removed anywhere, netloc up to the
first `/`, `?` or `#`, fragment discarded, query after the first `?`;
`body = netloc + path`); any other `://` is an invalid scheme; otherwise
the input splits at the first `?`.  `urlparse` accepts a bracketed netloc
only as a valid IP literal — canonical monikers contain no brackets, and
the model conservatively rejects them all. -/
def schemeSplit (s : Str) : Except Str (Str × Str) :=
  if (chars "moniker://").isPrefixOf s then
    let rest := (s.drop 10).filter (fun c => !(c = '\t' || c = '\r' || c = '\n'))
    let netloc := rest.takeWhile (fun c => !(c = '/' || c = '?' || c = '#'))
    let after := rest.dropWhile (fun c => !(c = '/' || c = '?' || c = '#'))
    if netloc.contains '[' || netloc.contains ']' then
      .error (chars "Invalid bracketed netloc")
    else
      let pq := match splitFirst '#' after with
        | some p => p.1
        | none => after
      match splitFirst '?' pq with
      | some p => .ok (netloc ++ p.1, p.2)
      | none => .ok (netloc ++ pq, [])
  else if hasSub (chars "://") s then
    .error (chars "Invalid scheme. Expected moniker:// or no scheme")
  else
    match splitFirst '?' s with
    | some p => .ok (p.1, p.2)
    | none => .ok (s, [])

/-- The namespace rule's guard: `first_at != -1 and (first_slash == -1 or
first_at < first_slash)`. -/
def nsCondHolds (fa fs : Option Nat) : Bool :=
  match fa, fs with
  | some a, some j => a < j
  | some _, none => true
  | none, _ => false

/-- Namespace extraction (parser lines 130-149): when the guard holds the
text before the first `@` is the namespace (validated on request) and
parsing continues after it. -/
def nsSplit (body : Str) (validate : Bool) : Except Str (Option Str × Str) :=
  if nsCondHolds (pyFindChar body '@') (pyFindChar body '/') then
    match pyFindChar body '@' with
    | some a =>
      let ns := body.take a
      if validate && !validateNamespace ns then
        .error (chars "Invalid namespace: " ++ ns)
      else .ok (some ns, body.drop (a + 1))
    | none => .ok (none, body)
  else .ok (none, body)

/-- The revision regex `^(\d+)(?:$|(?=\?))` applied to the fragment after
the last `/v`: a nonempty digit run followed by end of string, by a lone
trailing newline (Python `$`), or by a `?`. -/
def revMatch (frag : Str) : Option Int :=
  if !(frag.takeWhile isDigitA).isEmpty &&
      ((frag.drop (frag.takeWhile isDigitA).length).isEmpty ||
        (frag.drop (frag.takeWhile isDigitA).length).head? = some '?' ||
        frag.drop (frag.takeWhile isDigitA).length = ['\n']) then
    some ((natOfDigits (frag.takeWhile isDigitA) : Nat) : Int)
  else none

/-- Revision extraction (parser lines 151-163): split at the last `/v`;
on a revision match truncate there, otherwise leave the input unchanged. -/
def revSplit (r : Str) : Option Int × Str :=
  match rsplitV r with
  | none => (none, r)
  | some p =>
    match revMatch p.2 with
    | some n => (some n, p.1)
    | none => (none, r)

/-- The version rule's guard: `at_idx > last_slash_idx` with `rfind`'s
`-1` for a missing slash. -/
def verCondHolds (ai : Nat) (ls : Option Nat) : Bool :=
  match ls with
  | some j => ai > j
  | none => true

/-- Version extraction (parser lines 165-182): when the remainder contains
an `@` and its last occurrence is after the last `/`, the text after it is
the version (validated only when nonempty) and the remainder is truncated
before it. -/
def verSplit (r : Str) (validate : Bool) : Except Str (Option Str × Str) :=
  if r.contains '@' then
    match pyRfindChar r '@' with
    | some ai =>
      if verCondHolds ai (pyRfindChar r '/') then
        let v := r.drop (ai + 1)
        if validate && !v.isEmpty && !versionMatch v then
          .error (chars "Invalid version: " ++ v)
        else .ok (some v, r.take ai)
      else .ok (none, r)
    | none => .ok (none, r)
  else .ok (none, r)

/-- `parse_moniker`: empty check, strip, scheme/query split, namespace,
revision, version, path, query parameters. -/
def parseMoniker (s : Str) (validate : Bool) : Except Str Moniker :=
  if s.isEmpty then .error (chars "Empty moniker string")
  else
    let t := pyStrip s
    match schemeSplit t with
    | .error e => .error e
    | .ok bq =>
      match nsSplit bq.1 validate with
      | .error e => .error e
      | .ok nr =>
        let rr := revSplit nr.2
        match verSplit rr.2 validate with
        | .error e => .error e
        | .ok vr =>
          match parsePath vr.2 validate with
          | .error e => .error e
          | .ok p =>
            let params := if bq.2.isEmpty then [] else parseQsFirst bq.2
            .ok ⟨p, nr.1, vr.1, rr.1, params⟩

/-! ## Serialization (`Moniker.__str__`), normalize, build -/

/-- `Moniker.__str__`: `moniker://`, then `namespace@` when truthy, the
path joined by `/`, `@version` when truthy, `/vN` when the revision is not
`None`, and `?key=value&...` in stored order when parameters exist. -/
def monikerStr (m : Moniker) : Str :=
  let nsPart : Str := match m.nspace with
    | some n => if n.isEmpty then [] else n ++ ['@']
    | none => []
  let pathPart := joinSep '/' m.path.segments
  let verPart : Str := match m.version with
    | some v => if v.isEmpty then [] else '@' :: v
    | none => []
  let revPart : Str := match m.revision with
    | some r => chars "/v" ++ intStr r
    | none => []
  let base := nsPart ++ pathPart ++ verPart ++ revPart
  if m.params.isEmpty then chars "moniker://" ++ base
  else
    chars "moniker://" ++ base ++
      '?' :: joinSep '&' (m.params.map (fun p => p.1 ++ '=' :: p.2))

/-- `normalize_moniker`: parse with validation and reserialize. -/
def normalizeMoniker (s : Str) : Except Str Str :=
  (parseMoniker s true).map monikerStr

/-- `build_moniker`: parse the path string (validating, the default of
`parse_path`) and store the remaining components as given. -/
def buildMoniker (path : Str) (nspace version : Option Str) (revision : Option Int)
    (params : List (Str × Str)) : Except Str Moniker :=
  (parsePath path true).map (fun p => ⟨p, nspace, version, revision, params⟩)

/-! ### Python dates (`datetime.date`, as used by `dialect/rest.py`)

`RestDialect` calls `date.today()`; the embedding makes that environmental
input an explicit `today` argument.  Python dates cover the proleptic
Gregorian years 1..9999 (ordinals 1..3652059); arithmetic leaving that
range raises (`OverflowError` from `date ± timedelta`, `ValueError` from
the `date` constructor), modelled as `none`. -/

/-- A calendar date `(year, month, day)`, as in `datetime.date`. -/
structure PyDate where
  year : Int
  month : Int
  day : Int
deriving DecidableEq, Repr

/-- Gregorian leap-year test. -/
def isLeap (y : Int) : Bool := y % 4 = 0 && (y % 100 ≠ 0 || y % 400 = 0)

/-- Number of days in a month. -/
def daysInMonth (y m : Int) : Int :=
  if m = 2 then (if isLeap y then 29 else 28)
  else if m = 4 || m = 6 || m = 9 || m = 11 then 30
  else 31

/-- Days before the start of month `m` in year `y`. -/
def daysBeforeMonth (y m : Int) : Int :=
  (List.range 12).foldl
    (fun acc i => if (i : Int) + 1 < m then acc + daysInMonth y ((i : Int) + 1) else acc) 0

/-- Validity of a `(year, month, day)` triple for `datetime.date`. -/
def validYmd (d : PyDate) : Bool :=
  1 ≤ d.year && d.year ≤ 9999 && 1 ≤ d.month && d.month ≤ 12 &&
    1 ≤ d.day && d.day ≤ daysInMonth d.year d.month

/-- `date.toordinal()`: day number with 0001-01-01 as day 1. -/
def toOrd (d : PyDate) : Int :=
  let py := d.year - 1
  365 * py + py.fdiv 4 - py.fdiv 100 + py.fdiv 400 + daysBeforeMonth d.year d.month + d.day

/-- The ordinal of 9999-12-31, the largest `datetime.date`. -/
def maxOrd : Int := 3652059

/-- `date.fromordinal` for an in-range ordinal (civil-from-days algorithm). -/
def fromOrd (n : Int) : PyDate :=
  let z := n - 719163 + 719468
  let era := z.fdiv 146097
  let doe := z - era * 146097
  let yoe := (doe - doe.fdiv 1460 + doe.fdiv 36524 - doe.fdiv 146096).fdiv 365
  let y := yoe + era * 400
  let doy := doe - (365 * yoe + yoe.fdiv 4 - yoe.fdiv 100)
  let mp := (5 * doy + 2).fdiv 153
  let d := doy - (153 * mp + 2).fdiv 5 + 1
  let m := mp + (if mp < 10 then 3 else -9)
  ⟨y + (if m ≤ 2 then 1 else 0), m, d⟩

/-- A natural number as decimal digits left-padded with zeros to width `w`. -/
def padNat (w : Nat) (n : Nat) : Str :=
  let d := natDigits n
  List.replicate (w - d.length) '0' ++ d

/-- `date.isoformat()`: `YYYY-MM-DD`. -/
def isoFmt (d : PyDate) : Str :=
  padNat 4 d.year.toNat ++ '-' :: padNat 2 d.month.toNat ++ '-' :: padNat 2 d.day.toNat

/-- `date ± days` (through `timedelta`), raising outside the date range. -/
def ordShift (today : PyDate) (days : Int) : Option PyDate :=
  let o := toOrd today - days
  if 1 ≤ o ∧ o ≤ maxOrd then some (fromOrd o) else none

/-- `RestDialect.lookback_start` with the call to `date.today()` made an
explicit argument: `relativedelta` subtraction for years and months (day
clamped to the target month's length, year range checked as by the `date`
constructor), `timedelta` subtraction for weeks (times 7) and days (the
default), result in ISO format; `none` models the raised exception. -/
def restLookback (today : PyDate) (value : Int) (unit : Str) : Option Str :=
  let u := upperPy unit
  if u = chars "Y" then
    let y2 := today.year - value
    if 1 ≤ y2 ∧ y2 ≤ 9999 then
      some (isoFmt ⟨y2, today.month, min today.day (daysInMonth y2 today.month)⟩)
    else none
  else if u = chars "M" then
    let t := 12 * today.year + (today.month - 1) - value
    let y2 := t.fdiv 12
    let m2 := t.emod 12 + 1
    if 1 ≤ y2 ∧ y2 ≤ 9999 then
      some (isoFmt ⟨y2, m2, min today.day (daysInMonth y2 m2)⟩)
    else none
  else if u = chars "W" then
    (ordShift today (value * 7)).map isoFmt
  else
    (ordShift today value).map isoFmt

/-! ## Strict component grammars (used as round-trip hypotheses)

The Python validators tolerate one trailing newline (regex `$`); the
strict versions below do not, and additionally the query-parameter
character set below excludes the characters that query encoding or
whitespace stripping would not carry through unchanged. -/

/-- A strictly grammatical path segment (no newline tolerance). -/
def strictSeg (s : Str) : Bool :=
  (match s with
    | [] => false
    | c :: t => isAlnumA c && t.all isSegChar) && s.length ≤ 128

/-- A strictly grammatical namespace. -/
def strictNs (s : Str) : Bool :=
  (match s with
    | [] => false
    | c :: t => isLetterA c && t.all isNsChar) && s.length ≤ 64

/-- A strictly grammatical version: a nonempty alphanumeric run. -/
def strictVer (s : Str) : Bool :=
  !s.isEmpty && s.all isAlnumA

/-- Characters safe inside query keys and values: everything except the
query metacharacters `# % & = +`, brackets, and whitespace. -/
def qsChar (c : Char) : Bool :=
  !(c = '#' || c = '%' || c = '&' || c = '=' || c = '+' || c = '[' || c = ']' || isSpacePy c)

/-! ## Supporting lemmas -/

/-- Membership fails for an element the predicate excludes. -/
theorem not_mem_of_all (p : Char → Bool) (c : Char) (l : Str)
    (h : l.all p = true) (hc : p c = false) : c ∉ l := by
  intro hm
  have := List.all_eq_true.mp h c hm
  rw [hc] at this
  cases this

/-- `contains` is `false` exactly off the membership predicate. -/
theorem contains_eq_false {a : Type} [BEq a] [LawfulBEq a] (l : List a) (c : a)
    (h : c ∉ l) : l.contains c = false := by
  cases hc : l.contains c
  · rfl
  · exact absurd (List.elem_iff.mp hc) h

/-- `contains` is `true` on members. -/
theorem contains_eq_true (l : Str) (c : Char) (h : c ∈ l) : l.contains c = true :=
  List.elem_iff.mpr h

/-- A list is a Boolean prefix of itself followed by anything. -/
theorem isPrefixOf_append_self (a b : Str) : a.isPrefixOf (a ++ b) = true := by
  induction a with
  | nil => simp [List.isPrefixOf]
  | cons c t ih => simpa [List.isPrefixOf] using ih

/-- `pyFindChar` misses exactly the non-members. -/
theorem pyFindChar_eq_none (l : Str) (c : Char) (h : c ∉ l) :
    pyFindChar l c = none := by
  induction l with
  | nil => rfl
  | cons a t ih =>
    unfold pyFindChar
    rw [if_neg (by rintro rfl; exact h (by simp)), ih (fun hm => h (by simp [hm]))]
    rfl

/-- `pyFindChar` steps over a non-matching head. -/
theorem pyFindChar_cons_ne (x c : Char) (t : Str) (hx : x ≠ c) :
    pyFindChar (x :: t) c = (pyFindChar t c).map (· + 1) := by
  cases t with
  | nil => simp [pyFindChar, hx]
  | cons a r => simp [pyFindChar, hx]

/-- `pyFindChar` across an occurrence-free prefix. -/
theorem pyFindChar_append_left (a b : Str) (c : Char) (h : c ∉ a) :
    pyFindChar (a ++ b) c = (pyFindChar b c).map (· + a.length) := by
  induction a with
  | nil => simp
  | cons x t ih =>
    have hx : x ≠ c := by rintro rfl; exact h (by simp)
    have ht : c ∉ t := fun hm => h (by simp [hm])
    rw [List.cons_append, pyFindChar_cons_ne x c (t ++ b) hx, ih ht]
    cases pyFindChar b c with
    | none => rfl
    | some v => simp [Nat.add_assoc]

/-- `pyRfindChar` misses exactly the non-members. -/
theorem pyRfindChar_eq_none (l : Str) (c : Char) (h : c ∉ l) :
    pyRfindChar l c = none := by
  induction l with
  | nil => rfl
  | cons a t ih =>
    unfold pyRfindChar
    rw [ih (fun hm => h (by simp [hm])), if_neg (by rintro rfl; exact h (by simp))]

/-- `pyRfindChar` ignores an occurrence-free suffix. -/
theorem pyRfindChar_append_right (a b : Str) (c : Char) (h : c ∉ b) :
    pyRfindChar (a ++ b) c = pyRfindChar a c := by
  induction a with
  | nil => simpa using pyRfindChar_eq_none b c h
  | cons x t ih =>
    rw [List.cons_append]
    unfold pyRfindChar
    rw [ih]

/-- `pyRfindChar` finds the marked occurrence when none follow it. -/
theorem pyRfindChar_append_marker (a b : Str) (c : Char) (h : c ∉ b) :
    pyRfindChar (a ++ c :: b) c = some a.length := by
  induction a with
  | nil =>
    simp only [List.nil_append]
    unfold pyRfindChar
    rw [pyRfindChar_eq_none b c h]
    simp
  | cons x t ih =>
    rw [List.cons_append]
    unfold pyRfindChar
    rw [ih]
    simp

/-- A found index is inside the list. -/
theorem pyRfindChar_lt_length (l : Str) (c : Char) (i : Nat)
    (h : pyRfindChar l c = some i) : i < l.length := by
  induction l generalizing i with
  | nil => cases h
  | cons a t ih =>
    unfold pyRfindChar at h
    cases hr : pyRfindChar t c with
    | some j =>
      rw [hr] at h
      cases h
      have := ih j hr
      simp
      omega
    | none =>
      rw [hr] at h
      by_cases ha : a = c
      · rw [if_pos ha] at h
        cases h
        simp
      · rw [if_neg ha] at h
        cases h

/-- `splitFirst` misses exactly the non-members. -/
theorem splitFirst_eq_none (l : Str) (c : Char) (h : c ∉ l) :
    splitFirst c l = none := by
  induction l with
  | nil => rfl
  | cons a t ih =>
    unfold splitFirst
    rw [if_neg (by rintro rfl; exact h (by simp)), ih (fun hm => h (by simp [hm]))]
    rfl

/-- `splitFirst` steps over a non-matching head. -/
theorem splitFirst_cons_ne (c x : Char) (t : Str) (hx : x ≠ c) :
    splitFirst c (x :: t) = (splitFirst c t).map (fun p => (x :: p.1, p.2)) := by
  cases t with
  | nil => simp [splitFirst, hx]
  | cons a r => simp [splitFirst, hx]

/-- `splitFirst` across an occurrence-free prefix. -/
theorem splitFirst_append_left (a b : Str) (c : Char) (h : c ∉ a) :
    splitFirst c (a ++ b) = (splitFirst c b).map (fun p => (a ++ p.1, p.2)) := by
  induction a with
  | nil =>
    simp only [List.nil_append]
    cases splitFirst c b <;> simp
  | cons x t ih =>
    have hx : x ≠ c := by rintro rfl; exact h (by simp)
    have ht : c ∉ t := fun hm => h (by simp [hm])
    rw [List.cons_append, splitFirst_cons_ne c x (t ++ b) hx, ih ht]
    cases splitFirst c b with
    | none => rfl
    | some p => simp

/-- Stripping is the identity when both ends fail the predicate. -/
theorem pyStripWith_eq_self (p : Char → Bool) (l : Str)
    (h1 : ∀ x, l.head? = some x → p x = false)
    (h2 : ∀ x, l.getLast? = some x → p x = false) :
    pyStripWith p l = l := by
  have hd : l.dropWhile p = l := by
    cases l with
    | nil => rfl
    | cons a t => exact List.dropWhile_cons_of_neg (by simp [h1 a rfl])
  have hrv : l.reverse.dropWhile p = l.reverse := by
    cases hl : l.reverse with
    | nil => rfl
    | cons a t =>
      refine List.dropWhile_cons_of_neg ?_
      have ha : l.getLast? = some a := by
        rw [← List.head?_reverse, hl]
        rfl
      simp [h2 a ha]
  unfold pyStripWith
  rw [hd, hrv, List.reverse_reverse]

/-- Dropping past an appended marker character. -/
theorem drop_append_marker (a b : Str) (c : Char) :
    (a ++ c :: b).drop (a.length + 1) = b := by
  have : a ++ c :: b = (a ++ [c]) ++ b := by simp
  rw [this, show a.length + 1 = (a ++ [c]).length by simp]
  exact List.drop_left _ _

/-- `rsplitV` finds nothing without a slash. -/
theorem rsplitV_eq_none (l : Str) (h : '/' ∉ l) : rsplitV l = none := by
  induction l with
  | nil => rfl
  | cons a t ih =>
    unfold rsplitV
    rw [ih (fun hm => h (by simp [hm])), if_neg]
    rintro ⟨rfl, -⟩
    exact h (by simp)

/-- Python `or` on optional strings, characterized by truthiness. -/
theorem pyOrStr_eq (a b : Option Str) :
    pyOrStr a b = if isTruthyStr a then a else b := by
  cases a with
  | none => rfl
  | some s =>
    cases s with
    | nil => rfl
    | cons c t => rfl

/-- A successful validated `parse_path` only returns valid segments. -/
theorem parsePath_ok_valid (p : Str) (mp : MonikerPath)
    (h : parsePath p true = .ok mp) :
    ∀ seg ∈ mp.segments, validateSegment seg = true := by
  unfold parsePath at h
  by_cases h1 : (p.isEmpty || decide (p = ['/'])) = true
  · rw [if_pos h1] at h
    cases h
    intro seg hs
    exact absurd hs (by simp)
  · rw [if_neg h1] at h
    by_cases h2 : (stripSlash p).isEmpty = true
    · rw [if_pos h2] at h
      cases h
      intro seg hs
      exact absurd hs (by simp)
    · rw [if_neg h2, if_pos rfl] at h
      cases hf : (splitOnChar '/' (stripSlash p)).find? (fun g => !validateSegment g) with
      | some g => rw [hf] at h; cases h
      | none =>
        rw [hf] at h
        cases h
        intro seg hs
        have := List.find?_eq_none.mp hf seg hs
        simpa using this

/-- A successful `rsplitV` decomposes the string at a `/v`. -/
theorem rsplitV_eq_some (r pre frag : Str) (h : rsplitV r = some (pre, frag)) :
    r = pre ++ '/' :: 'v' :: frag := by
  induction r generalizing pre frag with
  | nil => cases h
  | cons c t ih =>
    unfold rsplitV at h
    cases hr : rsplitV t with
    | some p =>
      rw [hr] at h
      cases h
      rw [List.cons_append]
      exact congrArg (c :: ·) (ih p.1 p.2 hr)
    | none =>
      rw [hr] at h
      by_cases hcc : c = '/' ∧ t.head? = some 'v'
      · rw [if_pos hcc] at h
        obtain ⟨rfl, hh⟩ := hcc
        cases h
        cases t with
        | nil => cases hh
        | cons y r2 =>
          injection hh with hy
          rw [hy]
          rfl
      · rw [if_neg hcc] at h
        cases h

/-- `rsplitV` finds the final marked `/v` when no slash follows it. -/
theorem rsplitV_append_last (a d : Str) (hd : '/' ∉ d) :
    rsplitV (a ++ '/' :: 'v' :: d) = some (a, d) := by
  induction a with
  | nil =>
    simp only [List.nil_append]
    unfold rsplitV
    rw [rsplitV_eq_none ('v' :: d) (by simpa using hd), if_pos ⟨rfl, rfl⟩]
    rfl
  | cons c t ih =>
    rw [List.cons_append]
    unfold rsplitV
    rw [ih]

/-- `rsplitV` ignores a slash-free suffix that cannot complete a boundary
occurrence (when the suffix starts with `v`, the prefix must not end in a
slash). -/
theorem rsplitV_append_none (a b : Str) (hb : '/' ∉ b)
    (hbound : b.head? = some 'v' → a.getLast? ≠ some '/') :
    rsplitV (a ++ b) = (rsplitV a).map (fun p => (p.1, p.2 ++ b)) := by
  induction a with
  | nil => simpa using rsplitV_eq_none b hb
  | cons c t ih =>
    have hbt : b.head? = some 'v' → t.getLast? ≠ some '/' := by
      intro hv
      cases t with
      | nil => simp
      | cons y r =>
        have := hbound hv
        rwa [List.getLast?_cons_cons] at this
    rw [List.cons_append]
    unfold rsplitV
    rw [ih hbt]
    cases hrt : rsplitV t with
    | some p => rfl
    | none =>
      cases t with
      | cons c2 t2 =>
        simp only [List.cons_append, List.head?_cons, List.tail_cons]
        by_cases hcc : c = '/' ∧ some c2 = some 'v'
        · rw [if_pos hcc, if_pos hcc]
          rfl
        · rw [if_neg hcc, if_neg hcc]
          rfl
      | nil =>
        have hL : ¬(c = '/' ∧ (([] : Str) ++ b).head? = some 'v') := by
          rintro ⟨rfl, hv⟩
          exact hbound (by simpa using hv) (by simp)
        rw [if_neg hL, if_neg (by rintro ⟨-, hv⟩; cases hv)]
        rfl

/-- `splitOnChar` never returns the empty list. -/
theorem splitOnChar_ne_nil (sep : Char) (l : Str) : splitOnChar sep l ≠ [] := by
  cases l with
  | nil => simp [splitOnChar]
  | cons c t =>
    by_cases hc : c = sep
    · simp [splitOnChar, hc]
    · cases hr : splitOnChar sep t with
      | nil => simp [splitOnChar, hc, hr]
      | cons h t2 => simp [splitOnChar, hc, hr]

/-- A separator-free string splits into itself. -/
theorem splitOnChar_not_mem (sep : Char) (x : Str) (h : sep ∉ x) :
    splitOnChar sep x = [x] := by
  induction x with
  | nil => rfl
  | cons c t ih =>
    have hc : ¬c = sep := by rintro rfl; exact h (by simp)
    have ht := ih (fun hm => h (by simp [hm]))
    simp [splitOnChar, hc, ht]

/-- Splitting across a separator-free prefix extends the first chunk. -/
theorem splitOnChar_append_left (sep : Char) (x l h : Str) (t2 : List Str)
    (hx : sep ∉ x) (hl : splitOnChar sep l = h :: t2) :
    splitOnChar sep (x ++ l) = (x ++ h) :: t2 := by
  induction x with
  | nil => simpa using hl
  | cons c xs ih =>
    have hc : ¬c = sep := by rintro rfl; exact hx (by simp)
    have hxs : sep ∉ xs := fun hm => hx (by simp [hm])
    rw [List.cons_append]
    simp [splitOnChar, hc, ih hxs]

/-- Splitting a separator join recovers the parts. -/
theorem splitOnChar_joinSep (sep : Char) (parts : List Str) (hne : parts ≠ [])
    (hp : ∀ p ∈ parts, sep ∉ p) :
    splitOnChar sep (joinSep sep parts) = parts := by
  induction parts with
  | nil => cases hne rfl
  | cons x rest ih =>
    cases rest with
    | nil => exact splitOnChar_not_mem sep x (hp x (by simp))
    | cons y t =>
      have hrec := ih (by simp) (fun p hm => hp p (List.mem_cons_of_mem x hm))
      have hl : splitOnChar sep (sep :: joinSep sep (y :: t)) = [] :: y :: t := by
        simp [splitOnChar, hrec]
      have := splitOnChar_append_left sep x (sep :: joinSep sep (y :: t)) [] (y :: t)
        (hp x (by simp)) hl
      simpa [joinSep] using this

/-- Characters of a join are the separator or characters of a part. -/
theorem mem_joinSep (sep : Char) (parts : List Str) (c : Char)
    (h : c ∈ joinSep sep parts) : c = sep ∨ ∃ p ∈ parts, c ∈ p := by
  induction parts with
  | nil => cases h
  | cons x rest ih =>
    cases rest with
    | nil => exact Or.inr ⟨x, by simp, by simpa [joinSep] using h⟩
    | cons y t =>
      rw [show joinSep sep (x :: y :: t) = x ++ sep :: joinSep sep (y :: t) from rfl] at h
      rcases List.mem_append.mp h with hx | hr
      · exact Or.inr ⟨x, by simp, hx⟩
      · rcases List.mem_cons.mp hr with rfl | hr2
        · exact Or.inl rfl
        · rcases ih hr2 with hs | ⟨p, hp, hc⟩
          · exact Or.inl hs
          · exact Or.inr ⟨p, List.mem_cons_of_mem x hp, hc⟩

/-- Digit characters are in the digit class. -/
theorem digitChar_digit (d : Nat) (h : d < 10) : isDigitA (digitChar d) = true := by
  interval_cases d <;> decide

/-- The numeric value of a digit character. -/
theorem digitChar_toNat (d : Nat) (h : d < 10) : (digitChar d).toNat - 48 = d := by
  interval_cases d <;> decide

/-- With sufficient fuel, the decimal digits are nonempty, all digits, and
evaluate back to the number. -/
theorem natDigitsFuel_spec (fuel : Nat) : ∀ n, n < fuel →
    natDigitsFuel fuel n ≠ [] ∧ (natDigitsFuel fuel n).all isDigitA = true ∧
    natOfDigits (natDigitsFuel fuel n) = n := by
  induction fuel with
  | zero => intro n h; omega
  | succ f ih =>
    intro n h
    unfold natDigitsFuel
    by_cases h10 : n < 10
    · rw [if_pos h10]
      refine ⟨by simp, by simp [digitChar_digit n h10], ?_⟩
      show natOfDigits [digitChar n] = n
      unfold natOfDigits
      simp only [List.foldl_cons, List.foldl_nil]
      rw [Nat.mul_zero, Nat.zero_add, digitChar_toNat n h10]
    · rw [if_neg h10]
      have hf : n / 10 < f := by omega
      obtain ⟨hn1, hn2, hn3⟩ := ih (n / 10) hf
      refine ⟨by simp, ?_, ?_⟩
      · rw [List.all_append, hn2]
        simp [digitChar_digit (n % 10) (Nat.mod_lt n (by norm_num))]
      · unfold natOfDigits
        rw [List.foldl_append]
        show 10 * natOfDigits (natDigitsFuel f (n / 10)) + ((digitChar (n % 10)).toNat - 48) = n
        rw [hn3, digitChar_toNat (n % 10) (Nat.mod_lt n (by norm_num))]
        omega

/-- `natDigits` is nonempty, all digits, and inverts through `int(...)`. -/
theorem natDigits_spec (n : Nat) :
    natDigits n ≠ [] ∧ (natDigits n).all isDigitA = true ∧
    natOfDigits (natDigits n) = n :=
  natDigitsFuel_spec (n + 1) n (by omega)

/-- A nonnegative integer prints via `natDigits`. -/
theorem intStr_nonneg (k : Int) (h : 0 ≤ k) : intStr k = natDigits k.toNat := by
  unfold intStr
  rw [if_neg (by omega)]

/-- Alphanumerics are segment characters. -/
theorem isAlnumA_isSegChar (c : Char) (h : isAlnumA c = true) : isSegChar c = true := by
  simp [isSegChar, h]

/-- Namespace characters are segment characters. -/
theorem isNsChar_isSegChar (c : Char) (h : isNsChar c = true) : isSegChar c = true := by
  simp only [isNsChar, Bool.or_eq_true] at h
  simp only [isSegChar, Bool.or_eq_true]
  tauto

/-- Digits are alphanumeric. -/
theorem isDigitA_isAlnumA (c : Char) (h : isDigitA c = true) : isAlnumA c = true := by
  simp only [isDigitA, Bool.and_eq_true] at h
  simp only [isAlnumA, Bool.or_eq_true, Bool.and_eq_true]
  tauto

/-- Characters strictly between space and NEL are not Python whitespace. -/
theorem isSpacePy_graphic (c : Char) (h1 : 32 < c.toNat) (h2 : c.toNat < 0x85) :
    isSpacePy c = false := by
  simp only [isSpacePy, Bool.or_eq_false_iff, Bool.and_eq_false_iff,
    decide_eq_false_iff_not]
  omega

/-- Code point bounds of the alphanumeric class. -/
theorem isAlnumA_bounds (c : Char) (h : isAlnumA c = true) :
    48 ≤ c.toNat ∧ c.toNat ≤ 122 := by
  simp only [isAlnumA, Bool.or_eq_true, Bool.and_eq_true, decide_eq_true_eq] at h
  rcases h with (⟨h1, h2⟩ | ⟨h1, h2⟩) | ⟨h1, h2⟩
  · have g1 : (97:Nat) ≤ c.toNat := h1
    have g2 : c.toNat ≤ (122:Nat) := h2
    omega
  · have g1 : (65:Nat) ≤ c.toNat := h1
    have g2 : c.toNat ≤ (90:Nat) := h2
    omega
  · have g1 : (48:Nat) ≤ c.toNat := h1
    have g2 : c.toNat ≤ (57:Nat) := h2
    omega

/-- Code point bounds of the segment character class. -/
theorem isSegChar_bounds (c : Char) (h : isSegChar c = true) :
    45 ≤ c.toNat ∧ c.toNat ≤ 122 := by
  simp only [isSegChar, Bool.or_eq_true, decide_eq_true_eq] at h
  rcases h with ((ha | rfl) | rfl) | rfl
  · have := isAlnumA_bounds c ha
    omega
  · exact ⟨by decide, by decide⟩
  · exact ⟨by decide, by decide⟩
  · exact ⟨by decide, by decide⟩

/-- Segment characters are not whitespace. -/
theorem isSegChar_no_ws (c : Char) (h : isSegChar c = true) : isSpacePy c = false := by
  obtain ⟨h1, h2⟩ := isSegChar_bounds c h
  exact isSpacePy_graphic c (by omega) (by omega)

/-- Query-safe characters are not whitespace. -/
theorem qsChar_no_ws (c : Char) (h : qsChar c = true) : isSpacePy c = false := by
  cases hs : isSpacePy c
  · rfl
  · unfold qsChar at h
    rw [hs] at h
    simp at h

/-- A non-whitespace character is none of tab, CR, LF. -/
theorem no_ws_no_tab (c : Char) (h : isSpacePy c = false) :
    (!(c = '\t' || c = '\r' || c = '\n')) = true := by
  have h1 : c ≠ '\t' := by rintro rfl; exact absurd h (by decide)
  have h2 : c ≠ '\r' := by rintro rfl; exact absurd h (by decide)
  have h3 : c ≠ '\n' := by rintro rfl; exact absurd h (by decide)
  simp [h1, h2, h3]

/-- Strict segments satisfy the Python validator and the character class. -/
theorem strictSeg_valid (s : Str) (h : strictSeg s = true) :
    validateSegment s = true ∧ s.all isSegChar = true := by
  unfold strictSeg at h
  cases s with
  | nil => simp at h
  | cons c t =>
    simp only [Bool.and_eq_true, decide_eq_true_eq] at h
    obtain ⟨⟨hc, ht⟩, hlen⟩ := h
    constructor
    · simp only [List.length_cons] at hlen
      unfold validateSegment segMatch
      simp [hc, ht] <;> omega
    · simp [isAlnumA_isSegChar c hc, ht]

/-- Strict namespaces satisfy the Python validator and character class. -/
theorem strictNs_valid (s : Str) (h : strictNs s = true) :
    validateNamespace s = true ∧ s.all isNsChar = true := by
  unfold strictNs at h
  cases s with
  | nil => simp at h
  | cons c t =>
    simp only [Bool.and_eq_true, decide_eq_true_eq] at h
    obtain ⟨⟨hc, ht⟩, hlen⟩ := h
    constructor
    · simp only [List.length_cons] at hlen
      unfold validateNamespace nsMatch
      simp [hc, ht] <;> omega
    · have hcn : isNsChar c = true := by
        simp only [isLetterA, Bool.or_eq_true] at hc
        simp only [isNsChar, isAlnumA, Bool.or_eq_true]
        tauto
      simp [hcn, ht]

/-- Strict versions satisfy the Python pattern and are nonempty. -/
theorem strictVer_valid (s : Str) (h : strictVer s = true) :
    versionMatch s = true ∧ s ≠ [] ∧ s.all isAlnumA = true := by
  unfold strictVer at h
  simp only [Bool.and_eq_true, Bool.not_eq_true', List.isEmpty_eq_false] at h
  obtain ⟨hne, hall⟩ := h
  refine ⟨?_, hne, hall⟩
  unfold versionMatch
  cases s with
  | nil => cases hne rfl
  | cons c t => simp [hall]

/-- The token a safe character becomes. -/
def tokOf (c : Char) : QTok := if c.toNat < 128 then .byte c.toNat else .uchar c

/-- Tokenizing a percent-free string is a plain character map. -/
theorem unqTokensF_safe (fuel : Nat) : ∀ l : Str, l.length ≤ fuel → '%' ∉ l →
    unqTokensF fuel l = l.map tokOf := by
  induction fuel with
  | zero =>
    intro l h hp
    cases l with
    | nil => rfl
    | cons c t => simp at h
  | succ f ih =>
    intro l h hp
    cases l with
    | nil => rfl
    | cons c t =>
      unfold unqTokensF
      rw [if_neg (by rintro rfl; exact hp (by simp))]
      rw [ih t (by simp at h; omega) (fun hm => hp (by simp [hm]))]
      by_cases hc : c.toNat < 128
      · rw [if_pos hc]
        simp [tokOf, hc]
      · rw [if_neg hc]
        simp [tokOf, hc]

/-- Decoding the tokens of safe characters recovers the characters. -/
theorem decTokensF_safe (fuel : Nat) : ∀ l : Str, l.length ≤ fuel →
    decTokensF fuel (l.map tokOf) = l := by
  induction fuel with
  | zero =>
    intro l h
    cases l with
    | nil => rfl
    | cons c t => simp at h
  | succ f ih =>
    intro l h
    cases l with
    | nil => rfl
    | cons c t =>
      rw [List.map_cons]
      by_cases hc : c.toNat < 128
      · rw [show tokOf c = .byte c.toNat from by simp [tokOf, hc]]
        unfold decTokensF
        rw [if_pos hc, ih t (by simp at h; omega), Char.ofNat_toNat]
      · rw [show tokOf c = .uchar c from by simp [tokOf, hc]]
        unfold decTokensF
        rw [ih t (by simp at h; omega)]

/-- `unquote` (after plus replacement) is the identity on strings free of
`%` and `+`. -/
theorem qsUnquote_id (s : Str) (hp : '%' ∉ s) (hplus : '+' ∉ s) : qsUnquote s = s := by
  unfold qsUnquote
  rw [show s.map (fun c => if c = '+' then ' ' else c) = s from by
    rw [List.map_congr_left (fun a ha => if_neg (by rintro rfl; exact hplus ha))]
    simp]
  unfold unqTokens decTokens
  rw [unqTokensF_safe s.length s le_rfl hp,
    show (s.map tokOf).length = s.length from by simp]
  exact decTokensF_safe s.length s le_rfl

/-- Decoding one serialized `key=value` chunk recovers the pair. -/
theorem qsPair_kv (k v : Str) (hk : '=' ∉ k) (hkp : '%' ∉ k) (hkpl : '+' ∉ k)
    (hvp : '%' ∉ v) (hvpl : '+' ∉ v) :
    qsPair (k ++ '=' :: v) = (k, v) := by
  unfold qsPair
  rw [splitFirst_append_left k ('=' :: v) '=' hk,
    show splitFirst '=' ('=' :: v) = some ([], v) from by simp [splitFirst]]
  show (qsUnquote (k ++ []), qsUnquote v) = (k, v)
  rw [List.append_nil, qsUnquote_id k hkp hkpl, qsUnquote_id v hvp hvpl]

/-- The serialized form of one query pair. -/
def pairStr (pr : Str × Str) : Str := pr.1 ++ '=' :: pr.2

/-- Decoding a serialized query list recovers the pairs. -/
theorem parseQsl_join (params : List (Str × Str)) (hne : params ≠ [])
    (hsafe : ∀ pr ∈ params, pr.1.all qsChar = true ∧ pr.2.all qsChar = true) :
    parseQsl (joinSep '&' (params.map pairStr)) = params := by
  have hAmp : ∀ p ∈ params.map pairStr, '&' ∉ p := by
    intro p hp hmem
    obtain ⟨pr, hpr, rfl⟩ := List.mem_map.mp hp
    obtain ⟨hk, hv⟩ := hsafe pr hpr
    rcases List.mem_append.mp hmem with hik | hiv
    · exact not_mem_of_all qsChar '&' pr.1 hk (by decide) hik
    · rcases List.mem_cons.mp hiv with heq | hiv2
      · cases heq
      · exact not_mem_of_all qsChar '&' pr.2 hv (by decide) hiv2
  unfold parseQsl
  rw [splitOnChar_joinSep '&' (params.map pairStr) (by simpa using hne) hAmp]
  rw [List.filter_eq_self.mpr (by
    intro a ha
    obtain ⟨pr, hpr, rfl⟩ := List.mem_map.mp ha
    simp [pairStr])]
  rw [List.map_map]
  rw [List.map_congr_left (g := id) ?_]
  · simp
  · intro pr hpr
    obtain ⟨hk, hv⟩ := hsafe pr hpr
    show qsPair (pairStr pr) = pr
    unfold pairStr
    rw [qsPair_kv pr.1 pr.2
      (not_mem_of_all qsChar '=' pr.1 hk (by decide))
      (not_mem_of_all qsChar '%' pr.1 hk (by decide))
      (not_mem_of_all qsChar '+' pr.1 hk (by decide))
      (not_mem_of_all qsChar '%' pr.2 hv (by decide))
      (not_mem_of_all qsChar '+' pr.2 hv (by decide))]

/-- Deduplication is the identity on lists with distinct, unseen keys. -/
theorem dedupFirstKeys_id (l : List (Str × Str)) :
    (l.map Prod.fst).Nodup →
    ∀ seen, (∀ k ∈ l.map Prod.fst, k ∉ seen) → dedupFirstKeys l seen = l := by
  induction l with
  | nil => intro _ seen _; rfl
  | cons p t ih =>
    intro hnd seen hs
    have hc : seen.contains p.1 = false := contains_eq_false _ _ (hs p.1 (by simp))
    unfold dedupFirstKeys
    rw [if_neg (by rw [hc]; simp)]
    simp only [List.map_cons, List.nodup_cons] at hnd
    rw [ih hnd.2 (p.1 :: seen) ?_]
    intro k hk
    simp only [List.mem_cons]
    rintro (rfl | hkseen)
    · exact hnd.1 hk
    · exact hs k (by simp [hk]) hkseen

/-- The parameters the parser extracts from a serialized query string. -/
theorem parseQsFirst_join (params : List (Str × Str)) (hne : params ≠ [])
    (hsafe : ∀ pr ∈ params, pr.1.all qsChar = true ∧ pr.2.all qsChar = true)
    (hnd : (params.map Prod.fst).Nodup) :
    parseQsFirst (joinSep '&' (params.map pairStr)) = params := by
  unfold parseQsFirst
  rw [parseQsl_join params hne hsafe]
  exact dedupFirstKeys_id params hnd [] (by simp)

/-- `schemeSplit` on a `moniker://` URL free of `#`, brackets and
tab/CR/LF reduces to splitting the rest at the first `?`. -/
theorem schemeSplit_clean (E : Str) (hhash : '#' ∉ E) (hbr1 : '[' ∉ E) (hbr2 : ']' ∉ E)
    (hnotcr : ∀ c ∈ E, (!(c = '\t' || c = '\r' || c = '\n')) = true) :
    schemeSplit (chars "moniker://" ++ E) =
      .ok (match splitFirst '?' E with
            | some p => p
            | none => (E, [])) := by
  unfold schemeSplit
  rw [if_pos (isPrefixOf_append_self _ _)]
  rw [show (chars "moniker://" ++ E).drop 10 = E from by
    rw [show (10 : Nat) = (chars "moniker://").length from rfl]
    exact List.drop_left _ _]
  rw [List.filter_eq_self.mpr hnotcr]
  have hsub1 : '[' ∉ E.takeWhile (fun c => !(c = '/' || c = '?' || c = '#')) := by
    intro hm
    exact hbr1 ((List.takeWhile_prefix _).subset hm)
  have hsub2 : ']' ∉ E.takeWhile (fun c => !(c = '/' || c = '?' || c = '#')) := by
    intro hm
    exact hbr2 ((List.takeWhile_prefix _).subset hm)
  rw [if_neg (by
    rw [contains_eq_false _ _ hsub1, contains_eq_false _ _ hsub2]
    simp)]
  have hfr : splitFirst '#' (E.dropWhile (fun c => !(c = '/' || c = '?' || c = '#'))) = none := by
    apply splitFirst_eq_none
    intro hm
    exact hhash ((List.dropWhile_suffix _).subset hm)
  rw [hfr]
  have hq : '?' ∉ E.takeWhile (fun c => !(c = '/' || c = '?' || c = '#')) := by
    intro hm
    have := List.mem_takeWhile_imp hm
    simp at this
  have hE : E.takeWhile (fun c => !(c = '/' || c = '?' || c = '#')) ++
      E.dropWhile (fun c => !(c = '/' || c = '?' || c = '#')) = E :=
    List.takeWhile_append_dropWhile _ _
  have hsplitE : splitFirst '?' E =
      (splitFirst '?' (E.dropWhile (fun c => !(c = '/' || c = '?' || c = '#')))).map
        (fun p => (E.takeWhile (fun c => !(c = '/' || c = '?' || c = '#')) ++ p.1, p.2)) := by
    rw [← hE, splitFirst_append_left _ _ _ hq, hE]
  rw [hsplitE]
  show (match splitFirst '?' (E.dropWhile (fun c => !(c = '/' || c = '?' || c = '#'))) with
    | some p =>
      Except.ok ((E.takeWhile (fun c => !(c = '/' || c = '?' || c = '#'))) ++ p.1, p.2)
    | none =>
      Except.ok ((E.takeWhile (fun c => !(c = '/' || c = '?' || c = '#'))) ++
        E.dropWhile (fun c => !(c = '/' || c = '?' || c = '#')), [])) = _
  cases splitFirst '?' (E.dropWhile (fun c => !(c = '/' || c = '?' || c = '#'))) with
  | some pq => rfl
  | none =>
    simp only [Option.map]
    rw [hE]

/-- A digit run followed by an admissible tail picks out `takeWhile`. -/
theorem takeWhile_append_all (p : Char → Bool) (d rest : Str) (hd : d.all p = true)
    (hr : ∀ c, rest.head? = some c → p c = false) :
    (d ++ rest).takeWhile p = d ∧ (d ++ rest).drop d.length = rest := by
  constructor
  · induction d with
    | nil =>
      simp only [List.nil_append, List.takeWhile]
      cases rest with
      | nil => rfl
      | cons c t =>
        simp only [List.takeWhile]
        rw [hr c rfl]
    | cons x xs ih =>
      simp only [List.all_cons, Bool.and_eq_true] at hd
      rw [List.cons_append, List.takeWhile_cons_of_pos hd.1, ih hd.2]
  · exact List.drop_left d rest

/-- Dropping the matched prefix of `takeWhile` leaves `dropWhile`. -/
theorem drop_takeWhile_length (p : Char → Bool) (l : Str) :
    l.drop (l.takeWhile p).length = l.dropWhile p := by
  induction l with
  | nil => rfl
  | cons x xs ih =>
    by_cases hx : p x = true
    · rw [List.takeWhile_cons_of_pos hx, List.dropWhile_cons_of_pos hx, List.length_cons,
        List.drop_succ_cons, ih]
    · rw [List.takeWhile_cons_of_neg hx, List.dropWhile_cons_of_neg hx]
      rfl

/-- The head of `dropWhile` fails the predicate. -/
theorem dropWhile_head_not (p : Char → Bool) (l : Str) (c : Char) (t : Str)
    (h : l.dropWhile p = c :: t) : p c = false := by
  induction l with
  | nil => cases h
  | cons x xs ih =>
    by_cases hx : p x = true
    · rw [List.dropWhile_cons_of_pos hx] at h
      exact ih h
    · rw [List.dropWhile_cons_of_neg hx] at h
      cases h
      simpa using hx

/-- The revision regex condition, as the claim (amended) states it. -/
def revFragSpec (frag : Str) : Prop :=
  ∃ d rest, frag = d ++ rest ∧ d ≠ [] ∧ d.all isDigitA = true ∧
    (rest = [] ∨ rest.head? = some '?' ∨ rest = ['\n'])

/-- The regex matcher agrees with the amended specification condition. -/
theorem revMatch_spec (frag : Str) :
    (revFragSpec frag →
      revMatch frag = some ((natOfDigits (frag.takeWhile isDigitA) : Nat) : Int)) ∧
    (¬revFragSpec frag → revMatch frag = none) := by
  constructor
  · rintro ⟨d, rest, rfl, hne, hd, hr⟩
    have hhead : ∀ c, rest.head? = some c → isDigitA c = false := by
      intro c hc
      rcases hr with rfl | hq | rfl
      · cases hc
      · rw [hq] at hc
        cases hc
        decide
      · cases hc
        decide
    obtain ⟨htw, hdr⟩ := takeWhile_append_all isDigitA d rest hd hhead
    have hcond : (rest.isEmpty || decide (rest.head? = some '?') ||
        decide (rest = ['\n'])) = true := by
      rcases hr with rfl | hq | rfl
      · simp
      · simp [hq]
      · simp
    have hb : (!d.isEmpty && (rest.isEmpty || decide (rest.head? = some '?') ||
        decide (rest = ['\n']))) = true := by
      simp only [Bool.and_eq_true, Bool.not_eq_true', List.isEmpty_eq_false]
      exact ⟨hne, by simpa using hcond⟩
    unfold revMatch
    rw [htw, hdr, if_pos hb]
  · intro hns
    unfold revMatch
    rw [if_neg]
    intro hcond
    simp only [Bool.and_eq_true, Bool.or_eq_true, Bool.not_eq_true', List.isEmpty_eq_false,
      List.isEmpty_iff, decide_eq_true_eq] at hcond
    obtain ⟨hne, hrest⟩ := hcond
    apply hns
    refine ⟨frag.takeWhile isDigitA, frag.drop (frag.takeWhile isDigitA).length, ?_, hne,
      List.all_takeWhile, ?_⟩
    · rw [drop_takeWhile_length]
      exact (List.takeWhile_append_dropWhile isDigitA frag).symm
    · rcases hrest with (he | hq) | hn
      · exact Or.inl he
      · exact Or.inr (Or.inl hq)
      · exact Or.inr (Or.inr hn)

/-- `pyFindChar` keeps an index found in the prefix. -/
theorem pyFindChar_append_of_some (a b : Str) (c : Char) (i : Nat)
    (h : pyFindChar a c = some i) : pyFindChar (a ++ b) c = some i := by
  induction a generalizing i with
  | nil => cases h
  | cons x t ih =>
    by_cases hx : x = c
    · unfold pyFindChar at h
      rw [if_pos hx] at h
      cases h
      rw [List.cons_append]
      unfold pyFindChar
      rw [if_pos hx]
    · rw [pyFindChar_cons_ne x c t hx] at h
      cases hf : pyFindChar t c with
      | none => rw [hf] at h; cases h
      | some j =>
        rw [hf] at h
        injection h with h2
        rw [List.cons_append, pyFindChar_cons_ne x c (t ++ b) hx, ih j hf]
        rw [← h2]
        rfl

/-- The namespace stage takes a strict namespace before the first `@`. -/
theorem nsSplit_marker (n R : Str) (hn : strictNs n = true) :
    nsSplit (n ++ '@' :: R) true = .ok (some n, R) := by
  have hall := (strictNs_valid n hn).2
  have hat : '@' ∉ n := not_mem_of_all isNsChar '@' n hall (by decide)
  have hsl : '/' ∉ n := not_mem_of_all isNsChar '/' n hall (by decide)
  have hfa : pyFindChar (n ++ '@' :: R) '@' = some n.length := by
    rw [pyFindChar_append_left n ('@' :: R) '@' hat]
    simp [pyFindChar]
  have hcond : nsCondHolds (some n.length) (pyFindChar (n ++ '@' :: R) '/') = true := by
    rw [pyFindChar_append_left n ('@' :: R) '/' hsl,
      pyFindChar_cons_ne '@' '/' R (by decide)]
    cases pyFindChar R '/' with
    | none => rfl
    | some j =>
      simp [nsCondHolds] <;> omega
  simp only [nsSplit, hfa, hcond, if_true]
  rw [List.take_left, drop_append_marker]
  rw [(strictNs_valid n hn).1]
  simp

/-- The namespace stage passes through a body without `@`. -/
theorem nsSplit_no_at (B : Str) (h : '@' ∉ B) (validate : Bool) :
    nsSplit B validate = .ok (none, B) := by
  unfold nsSplit
  rw [pyFindChar_eq_none B '@' h]
  rfl

/-- The namespace stage passes through when the first slash precedes the
first `@`. -/
theorem nsSplit_slash_first (s1 P2 rest : Str) (h1 : '/' ∉ s1) (h2 : '@' ∉ s1)
    (h3 : '@' ∉ P2) (validate : Bool) :
    nsSplit ((s1 ++ '/' :: P2) ++ '@' :: rest) validate =
      .ok (none, (s1 ++ '/' :: P2) ++ '@' :: rest) := by
  have hPat : '@' ∉ s1 ++ '/' :: P2 := by
    intro hm
    rcases List.mem_append.mp hm with hx | hx
    · exact h2 hx
    · rcases List.mem_cons.mp hx with heq | hx2
      · cases heq
      · exact h3 hx2
  have hfa : pyFindChar ((s1 ++ '/' :: P2) ++ '@' :: rest) '@' =
      some (s1 ++ '/' :: P2).length := by
    rw [pyFindChar_append_left _ ('@' :: rest) '@' hPat]
    simp [pyFindChar]
  have hfs : pyFindChar ((s1 ++ '/' :: P2) ++ '@' :: rest) '/' = some s1.length := by
    apply pyFindChar_append_of_some
    rw [pyFindChar_append_left s1 ('/' :: P2) '/' h1]
    simp [pyFindChar]
  unfold nsSplit
  rw [hfa, hfs]
  rw [show nsCondHolds (some (s1 ++ '/' :: P2).length) (some s1.length) = false from by
    simp [nsCondHolds] <;> omega]
  rfl

/-- The revision stage strips a serialized `/vN` suffix. -/
theorem revSplit_digits (A : Str) (n : Nat) :
    revSplit (A ++ '/' :: 'v' :: natDigits n) = (some ((n : Nat) : Int), A) := by
  obtain ⟨hne, hd, hval⟩ := natDigits_spec n
  have hslash : '/' ∉ natDigits n := not_mem_of_all isDigitA '/' _ hd (by decide)
  have htw : (natDigits n).takeWhile isDigitA = natDigits n := by
    have := (takeWhile_append_all isDigitA (natDigits n) [] hd (by intro c hc; cases hc)).1
    rwa [List.append_nil] at this
  have hrm : revMatch (natDigits n) =
      some ((natOfDigits ((natDigits n).takeWhile isDigitA) : Nat) : Int) :=
    (revMatch_spec _).1 ⟨natDigits n, [], by simp, hne, hd, Or.inl rfl⟩
  unfold revSplit
  rw [rsplitV_append_last A _ hslash]
  show (match revMatch (natDigits n) with
        | some k => (some k, A)
        | none => (none, A ++ '/' :: 'v' :: natDigits n)) = (some ((n : Nat) : Int), A)
  rw [hrm, htw, hval]

/-- The revision stage passes through a string whose post-`/v` fragment is
not a digit run (given the string avoids `?` and newline). -/
theorem revSplit_pass (R : Str) (hq : '?' ∉ R) (hnl : '\n' ∉ R)
    (hnd : ∀ pre frag, rsplitV R = some (pre, frag) →
      ¬(frag ≠ [] ∧ frag.all isDigitA = true)) :
    revSplit R = (none, R) := by
  unfold revSplit
  cases hr : rsplitV R with
  | none => rfl
  | some p =>
    have hdec := rsplitV_eq_some R p.1 p.2 hr
    have hfragR : ∀ c ∈ p.2, c ∈ R := by
      rw [hdec]
      intro c hc
      simp [hc]
    have hnone : revMatch p.2 = none := by
      apply (revMatch_spec p.2).2
      rintro ⟨d, rest, heq, hne, hdig, hcase⟩
      rcases hcase with rfl | hq2 | rfl
      · rw [List.append_nil] at heq
        exact hnd p.1 p.2 hr ⟨by rw [heq]; exact hne, by rw [heq]; exact hdig⟩
      · have hqin : '?' ∈ p.2 := by
          rw [heq]
          exact List.mem_append.mpr (Or.inr (List.mem_of_mem_head? (by rw [hq2]; rfl)))
        exact hq (hfragR _ hqin)
      · have hnin : '\n' ∈ p.2 := by
          rw [heq]
          simp
        exact hnl (hfragR _ hnin)
    show (match revMatch p.2 with
          | some k => (some k, p.1)
          | none => (none, R)) = (none, R)
    rw [hnone]

/-- The version stage takes a strict version after the last `@`. -/
theorem verSplit_marker (P v : Str) (hv : strictVer v = true) :
    verSplit (P ++ '@' :: v) true = .ok (some v, P) := by
  obtain ⟨hvm, hvne, hvall⟩ := strictVer_valid v hv
  have hat_v : '@' ∉ v := not_mem_of_all isAlnumA '@' v hvall (by decide)
  have hsl_v : '/' ∉ v := not_mem_of_all isAlnumA '/' v hvall (by decide)
  have hmem : (P ++ '@' :: v).contains '@' = true := contains_eq_true _ _ (by simp)
  have hrf : pyRfindChar (P ++ '@' :: v) '@' = some P.length :=
    pyRfindChar_append_marker P v '@' hat_v
  have hcond : verCondHolds P.length (pyRfindChar (P ++ '@' :: v) '/') = true := by
    rw [show pyRfindChar (P ++ '@' :: v) '/' = pyRfindChar P '/' from
      pyRfindChar_append_right P ('@' :: v) '/' (by
        intro hm
        rcases List.mem_cons.mp hm with heq | hm2
        · cases heq
        · exact hsl_v hm2)]
    cases hpf : pyRfindChar P '/' with
    | none => rfl
    | some j =>
      have := pyRfindChar_lt_length P '/' j hpf
      simp [verCondHolds]
      omega
  simp only [verSplit, hmem, if_true, hrf, hcond, drop_append_marker, List.take_left]
  rw [hvm]
  simp

/-- The version stage passes through a remainder without `@`. -/
theorem verSplit_no_at (P : Str) (h : '@' ∉ P) (validate : Bool) :
    verSplit P validate = .ok (none, P) := by
  unfold verSplit
  rw [contains_eq_false P '@' h]
  rfl

/-- The last element, when present, is a member. -/
theorem mem_of_getLast? {l : Str} {c : Char} (h : l.getLast? = some c) : c ∈ l := by
  have h2 : l.reverse.head? = some c := by
    rw [List.head?_reverse]
    exact h
  have h3 := List.mem_of_mem_head? (show c ∈ l.reverse.head? from by rw [h2]; rfl)
  simpa using h3

/-- A separator join of nonempty parts is nonempty. -/
theorem joinSep_ne_nil (sep : Char) (parts : List Str) (hne : parts ≠ [])
    (hpne : ∀ p ∈ parts, p ≠ []) : joinSep sep parts ≠ [] := by
  cases parts with
  | nil => cases hne rfl
  | cons x rest =>
    cases rest with
    | nil => exact hpne x (by simp)
    | cons y t =>
      show x ++ sep :: joinSep sep (y :: t) ≠ []
      cases hx : x with
      | nil => simp
      | cons c cs => simp

/-- The last character of a join of nonempty parts ends some part. -/
theorem joinSep_getLast_mem (sep : Char) (parts : List Str) (hpne : ∀ p ∈ parts, p ≠ []) :
    ∀ c, (joinSep sep parts).getLast? = some c → ∃ p ∈ parts, p.getLast? = some c := by
  induction parts with
  | nil => intro c h; cases h
  | cons x rest ih =>
    intro c h
    cases rest with
    | nil => exact ⟨x, by simp, h⟩
    | cons y t =>
      rw [show joinSep sep (x :: y :: t) = x ++ sep :: joinSep sep (y :: t) from rfl,
        List.getLast?_append] at h
      have hjne : joinSep sep (y :: t) ≠ [] :=
        joinSep_ne_nil sep (y :: t) (by simp) (fun p hp => hpne p (List.mem_cons_of_mem x hp))
      cases hj : joinSep sep (y :: t) with
      | nil => exact absurd hj hjne
      | cons j0 jr =>
        rw [hj, List.getLast?_cons_cons] at h
        have h2 : (j0 :: jr).getLast? = some c := by
          cases hgl : (j0 :: jr).getLast? with
          | none => simp [List.getLast?] at hgl
          | some d =>
            rw [hgl] at h
            simpa using h
        rw [← hj] at h2
        obtain ⟨p, hp, hpc⟩ := ih (fun p hp => hpne p (List.mem_cons_of_mem x hp)) c h2
        exact ⟨p, List.mem_cons_of_mem x hp, hpc⟩

/-- Parsing the serialized path of strict segments recovers them. -/
theorem parsePath_join (segs : List Str) (hsegs : ∀ seg ∈ segs, strictSeg seg = true) :
    parsePath (joinSep '/' segs) true = .ok ⟨segs⟩ := by
  cases hsc : segs with
  | nil => rfl
  | cons s rest =>
    subst hsc
    have hpne : ∀ p ∈ s :: rest, p ≠ [] := by
      intro p hp hemp
      have := (strictSeg_valid p (hsegs p hp)).1
      rw [hemp] at this
      cases this
    have hslash : ∀ p ∈ s :: rest, '/' ∉ p := by
      intro p hp
      exact not_mem_of_all isSegChar '/' p (strictSeg_valid p (hsegs p hp)).2 (by decide)
    have hne : joinSep '/' (s :: rest) ≠ [] := joinSep_ne_nil '/' _ (by simp) hpne
    have hhead : ∀ x, (joinSep '/' (s :: rest)).head? = some x → isSegChar x = true := by
      intro x hx
      have hs0 := strictSeg_valid s (hsegs s (by simp))
      have hxh : (joinSep '/' (s :: rest)).head? = s.head? := by
        cases rest with
        | nil => rfl
        | cons y t =>
          exact List.head?_append_of_ne_nil s (hpne s (by simp))
      rw [hxh] at hx
      exact List.all_eq_true.mp hs0.2 x (List.mem_of_mem_head? (by rw [hx]; rfl))
    have hlast : ∀ x, (joinSep '/' (s :: rest)).getLast? = some x → isSegChar x = true := by
      intro x hx
      obtain ⟨p, hp, hpc⟩ := joinSep_getLast_mem '/' (s :: rest) hpne x hx
      exact List.all_eq_true.mp (strictSeg_valid p (hsegs p hp)).2 x
        (mem_of_getLast? hpc)
    have hstrip : stripSlash (joinSep '/' (s :: rest)) = joinSep '/' (s :: rest) := by
      apply pyStripWith_eq_self
      · intro x hx
        have := hhead x hx
        simp only [decide_eq_false_iff_not]
        rintro rfl
        exact absurd this (by decide)
      · intro x hx
        have := hlast x hx
        simp only [decide_eq_false_iff_not]
        rintro rfl
        exact absurd this (by decide)
    have hP1 : ¬(joinSep '/' (s :: rest)).isEmpty = true := by
      simpa using hne
    have hP2 : joinSep '/' (s :: rest) ≠ ['/'] := by
      intro heq
      have := hhead '/' (by rw [heq]; rfl)
      exact absurd this (by decide)
    have hg : ¬((joinSep '/' (s :: rest)).isEmpty ||
        decide (joinSep '/' (s :: rest) = ['/'])) = true := by
      simp only [Bool.or_eq_true, decide_eq_true_eq]
      rintro (he | he)
      · exact hP1 he
      · exact hP2 he
    unfold parsePath
    rw [if_neg hg, hstrip, if_neg (by simpa using hne), if_pos rfl]
    rw [splitOnChar_joinSep '/' (s :: rest) (by simp) hslash]
    rw [show (s :: rest).find? (fun g => !validateSegment g) = none from
      List.find?_eq_none.mpr (by
        intro seg hs2
        simp [(strictSeg_valid seg (hsegs seg hs2)).1])]

/-! ## Round-trip machinery (serialize then parse) -/

/-- A Boolean predicate lifted to an optional value (`True` on `none`). -/
def optAll {α : Type} (p : α → Bool) : Option α → Bool
  | some x => p x
  | none => true

/-- The serialized namespace part (for a strictly grammatical namespace). -/
def nsStr : Option Str → Str
  | some n => n ++ ['@']
  | none => []

/-- The serialized version part (for a strictly grammatical version). -/
def verStr : Option Str → Str
  | some v => '@' :: v
  | none => []

/-- The serialized revision part (for a nonnegative revision). -/
def revStr : Option Int → Str
  | some r => '/' :: 'v' :: natDigits r.toNat
  | none => []

/-- Characters that can occur before the query part of a serialized
moniker built from strict components. -/
def baseChar (c : Char) : Bool := isSegChar c || c = '@' || c = '/'

/-- Characters that can occur in the query part of a serialized moniker
built from safe parameters. -/
def queryChar (c : Char) : Bool := qsChar c || c = '=' || c = '&'

/-- A strict namespace is nonempty. -/
theorem strictNs_ne_nil (n : Str) (h : strictNs n = true) : n ≠ [] := by
  cases n with
  | nil => exact absurd h (by decide)
  | cons c t => simp

/-- A strict version is nonempty. -/
theorem strictVer_ne_nil (v : Str) (h : strictVer v = true) : v ≠ [] := by
  unfold strictVer at h
  simp only [Bool.and_eq_true, Bool.not_eq_true', List.isEmpty_eq_false] at h
  exact h.1

/-- Base characters are never whitespace nor URL metacharacters. -/
theorem baseChar_facts (c : Char) (h : baseChar c = true) :
    isSpacePy c = false ∧ c ≠ '#' ∧ c ≠ '[' ∧ c ≠ ']' ∧ c ≠ '?' := by
  simp only [baseChar, Bool.or_eq_true, decide_eq_true_eq] at h
  rcases h with (hs | rfl) | rfl
  · exact ⟨isSegChar_no_ws c hs,
      by rintro rfl; exact absurd hs (by decide),
      by rintro rfl; exact absurd hs (by decide),
      by rintro rfl; exact absurd hs (by decide),
      by rintro rfl; exact absurd hs (by decide)⟩
  · exact ⟨by decide, by decide, by decide, by decide, by decide⟩
  · exact ⟨by decide, by decide, by decide, by decide, by decide⟩

/-- Query characters are never whitespace nor `#` nor brackets. -/
theorem queryChar_facts (c : Char) (h : queryChar c = true) :
    isSpacePy c = false ∧ c ≠ '#' ∧ c ≠ '[' ∧ c ≠ ']' := by
  simp only [queryChar, Bool.or_eq_true, decide_eq_true_eq] at h
  rcases h with (hs | rfl) | rfl
  · exact ⟨qsChar_no_ws c hs,
      by rintro rfl; exact absurd hs (by decide),
      by rintro rfl; exact absurd hs (by decide),
      by rintro rfl; exact absurd hs (by decide)⟩
  · exact ⟨by decide, by decide, by decide, by decide⟩
  · exact ⟨by decide, by decide, by decide, by decide⟩

/-- The serializer's output, written with the explicit part strings. -/
theorem monikerStr_shape (segs : List Str) (ns ver : Option Str) (rev : Option Int)
    (prs : List (Str × Str))
    (hns : optAll strictNs ns = true)
    (hver : optAll strictVer ver = true)
    (hrev : optAll (fun r => decide (0 ≤ r)) rev = true) :
    monikerStr ⟨⟨segs⟩, ns, ver, rev, prs⟩ =
      chars "moniker://" ++
        ((nsStr ns ++ (joinSep '/' segs ++ (verStr ver ++ revStr rev))) ++
          (if prs.isEmpty then [] else '?' :: joinSep '&' (prs.map pairStr))) := by
  have hfun : (fun p : Str × Str => p.1 ++ '=' :: p.2) = pairStr := rfl
  have hvchars : chars "/v" = ['/', 'v'] := rfl
  cases ns with
  | some n =>
    have hn := strictNs_ne_nil n hns
    cases ver with
    | some v =>
      have hv := strictVer_ne_nil v hver
      cases rev with
      | some r =>
        have hr : (0:Int) ≤ r := of_decide_eq_true hrev
        cases prs <;> simp [monikerStr, nsStr, verStr, revStr, hfun, hvchars, hn, hv,
          intStr_nonneg r hr, List.append_assoc]
      | none =>
        cases prs <;> simp [monikerStr, nsStr, verStr, revStr, hfun, hn, hv,
          List.append_assoc]
    | none =>
      cases rev with
      | some r =>
        have hr : (0:Int) ≤ r := of_decide_eq_true hrev
        cases prs <;> simp [monikerStr, nsStr, verStr, revStr, hfun, hvchars, hn,
          intStr_nonneg r hr, List.append_assoc]
      | none =>
        cases prs <;> simp [monikerStr, nsStr, verStr, revStr, hfun, hn,
          List.append_assoc]
  | none =>
    cases ver with
    | some v =>
      have hv := strictVer_ne_nil v hver
      cases rev with
      | some r =>
        have hr : (0:Int) ≤ r := of_decide_eq_true hrev
        cases prs <;> simp [monikerStr, nsStr, verStr, revStr, hfun, hvchars, hv,
          intStr_nonneg r hr, List.append_assoc]
      | none =>
        cases prs <;> simp [monikerStr, nsStr, verStr, revStr, hfun, hv,
          List.append_assoc]
    | none =>
      cases rev with
      | some r =>
        have hr : (0:Int) ≤ r := of_decide_eq_true hrev
        cases prs <;> simp [monikerStr, nsStr, verStr, revStr, hfun, hvchars,
          intStr_nonneg r hr, List.append_assoc]
      | none =>
        cases prs <;> simp [monikerStr, nsStr, verStr, revStr, hfun,
          List.append_assoc]

/-- A character that is neither a segment character nor the separator is
not in a joined path of strict segments. -/
theorem not_in_joinPath (segs : List Str) (hsegs : segs.all strictSeg = true)
    (c : Char) (hc : isSegChar c = false) (hcs : c ≠ '/') : c ∉ joinSep '/' segs := by
  intro hm
  rcases mem_joinSep '/' segs c hm with rfl | ⟨p, hp, hcp⟩
  · exact hcs rfl
  · have := List.all_eq_true.mp
      (strictSeg_valid p (List.all_eq_true.mp hsegs p hp)).2 c hcp
    rw [hc] at this
    cases this

/-- A character that is none of slash, `v` or a digit is not in a
serialized revision part. -/
theorem not_in_revStr (rev : Option Int) (c : Char) (hcd : isDigitA c = false)
    (hc1 : c ≠ '/') (hc2 : c ≠ 'v') : c ∉ revStr rev := by
  cases rev with
  | none => simp [revStr]
  | some r =>
    intro hm
    rw [show revStr (some r) = '/' :: 'v' :: natDigits r.toNat from rfl] at hm
    rcases List.mem_cons.mp hm with rfl | hm2
    · exact hc1 rfl
    · rcases List.mem_cons.mp hm2 with rfl | hm3
      · exact hc2 rfl
      · have := List.all_eq_true.mp (natDigits_spec r.toNat).2.1 c hm3
        rw [hcd] at this
        cases this

/-- Every character of the pre-query body of a serialized strict moniker
is a base character. -/
theorem base_chars (segs : List Str) (ns ver : Option Str) (rev : Option Int)
    (hsegs : segs.all strictSeg = true)
    (hns : optAll strictNs ns = true)
    (hver : optAll strictVer ver = true) :
    ∀ c ∈ nsStr ns ++ (joinSep '/' segs ++ (verStr ver ++ revStr rev)),
      baseChar c = true := by
  intro c hc
  rcases List.mem_append.mp hc with hc1 | hc2
  · cases ns with
    | none => simp [nsStr] at hc1
    | some n =>
      have hn : strictNs n = true := hns
      rw [show nsStr (some n) = n ++ ['@'] from rfl] at hc1
      rcases List.mem_append.mp hc1 with hx | hx
      · have := List.all_eq_true.mp (strictNs_valid n hn).2 c hx
        simp [baseChar, isNsChar_isSegChar c this]
      · rcases List.mem_singleton.mp hx with rfl
        decide
  · rcases List.mem_append.mp hc2 with hc3 | hc4
    · rcases mem_joinSep '/' segs c hc3 with rfl | ⟨p, hp, hcp⟩
      · decide
      · have := List.all_eq_true.mp
          (strictSeg_valid p (List.all_eq_true.mp hsegs p hp)).2 c hcp
        simp [baseChar, this]
    · rcases List.mem_append.mp hc4 with hc5 | hc6
      · cases ver with
        | none => simp [verStr] at hc5
        | some v =>
          have hv : strictVer v = true := hver
          rw [show verStr (some v) = '@' :: v from rfl] at hc5
          rcases List.mem_cons.mp hc5 with rfl | hx
          · decide
          · have := List.all_eq_true.mp (strictVer_valid v hv).2.2 c hx
            simp [baseChar, isAlnumA_isSegChar c this]
      · cases rev with
        | none => simp [revStr] at hc6
        | some r =>
          rw [show revStr (some r) = '/' :: 'v' :: natDigits r.toNat from rfl] at hc6
          rcases List.mem_cons.mp hc6 with rfl | hx
          · decide
          · rcases List.mem_cons.mp hx with rfl | hy
            · decide
            · have := List.all_eq_true.mp (natDigits_spec r.toNat).2.1 c hy
              simp [baseChar, isAlnumA_isSegChar c (isDigitA_isAlnumA c this)]

/-- Every character of a serialized safe query string is a query
character. -/
theorem query_chars (prs : List (Str × Str))
    (hpar : prs.all (fun pr => pr.1.all qsChar && pr.2.all qsChar) = true) :
    ∀ c ∈ joinSep '&' (prs.map pairStr), queryChar c = true := by
  intro c hc
  rcases mem_joinSep '&' (prs.map pairStr) c hc with rfl | ⟨p, hp, hcp⟩
  · decide
  · obtain ⟨pr, hpr, rfl⟩ := List.mem_map.mp hp
    have hb := List.all_eq_true.mp hpar pr hpr
    simp only [Bool.and_eq_true] at hb
    rcases List.mem_append.mp hcp with hx | hx
    · have := List.all_eq_true.mp hb.1 c hx
      simp [queryChar, this]
    · rcases List.mem_cons.mp hx with rfl | hy
      · decide
      · have := List.all_eq_true.mp hb.2 c hy
        simp [queryChar, this]

/-- A serialized query pair is nonempty. -/
theorem pairStr_ne_nil (pr : Str × Str) : pairStr pr ≠ [] := by
  simp [pairStr]

/-- The namespace stage on a serialized strict body returns exactly the
serialized namespace. -/
theorem ns_stage (segs : List Str) (ns ver : Option Str) (rev : Option Int)
    (hsegs : segs.all strictSeg = true)
    (hns : optAll strictNs ns = true)
    (hver : optAll strictVer ver = true)
    (hs1 : ver ≠ none → ns = none → 2 ≤ segs.length) :
    nsSplit (nsStr ns ++ (joinSep '/' segs ++ (verStr ver ++ revStr rev))) true =
      .ok (ns, joinSep '/' segs ++ (verStr ver ++ revStr rev)) := by
  cases ns with
  | some n =>
    have hn : strictNs n = true := hns
    rw [show nsStr (some n) ++ (joinSep '/' segs ++ (verStr ver ++ revStr rev)) =
        n ++ '@' :: (joinSep '/' segs ++ (verStr ver ++ revStr rev)) from by
      simp [nsStr]]
    exact nsSplit_marker n _ hn
  | none =>
    rw [show nsStr none ++ (joinSep '/' segs ++ (verStr ver ++ revStr rev)) =
        joinSep '/' segs ++ (verStr ver ++ revStr rev) from by simp [nsStr]]
    cases ver with
    | none =>
      apply nsSplit_no_at
      intro hm
      rcases List.mem_append.mp hm with h | h
      · exact not_in_joinPath segs hsegs '@' (by decide) (by decide) h
      · rw [show verStr none = [] from rfl, List.nil_append] at h
        exact not_in_revStr rev '@' (by decide) (by decide) (by decide) h
    | some v =>
      have h2 : 2 ≤ segs.length := hs1 (by simp) rfl
      cases segs with
      | nil => simp at h2
      | cons s1 rest =>
        cases rest with
        | nil => simp at h2
        | cons s2 t =>
          simp only [List.all_cons, Bool.and_eq_true] at hsegs
          obtain ⟨hst1, hst2, hst3⟩ := hsegs
          have hall1 := (strictSeg_valid s1 hst1).2
          rw [show joinSep '/' (s1 :: s2 :: t) ++ (verStr (some v) ++ revStr rev) =
              (s1 ++ '/' :: joinSep '/' (s2 :: t)) ++ '@' :: (v ++ revStr rev) from by
            rw [show joinSep '/' (s1 :: s2 :: t) =
              s1 ++ '/' :: joinSep '/' (s2 :: t) from rfl]
            simp [verStr]]
          exact nsSplit_slash_first s1 (joinSep '/' (s2 :: t)) (v ++ revStr rev)
            (not_mem_of_all isSegChar '/' s1 hall1 (by decide))
            (not_mem_of_all isSegChar '@' s1 hall1 (by decide))
            (not_in_joinPath (s2 :: t)
              (by simp [List.all_cons, hst2, hst3]) '@' (by decide) (by decide))
            true

/-- The revision stage on the remainder strips exactly the serialized
revision part. -/
theorem rev_stage (segs : List Str) (ver : Option Str) (rev : Option Int)
    (hsegs : segs.all strictSeg = true)
    (hver : optAll strictVer ver = true)
    (hrev : optAll (fun r => decide (0 ≤ r)) rev = true)
    (hs2 : ver = none → rev = none →
      revSplit (joinSep '/' segs) = (none, joinSep '/' segs)) :
    revSplit (joinSep '/' segs ++ (verStr ver ++ revStr rev)) =
      (rev, joinSep '/' segs ++ verStr ver) := by
  cases rev with
  | some r =>
    have hr0 : (0:Int) ≤ r := of_decide_eq_true hrev
    rw [show joinSep '/' segs ++ (verStr ver ++ revStr (some r)) =
        (joinSep '/' segs ++ verStr ver) ++ '/' :: 'v' :: natDigits r.toNat from by
      simp [revStr]]
    rw [revSplit_digits (joinSep '/' segs ++ verStr ver) r.toNat,
      Int.toNat_of_nonneg hr0]
  | none =>
    rw [show verStr ver ++ revStr none = verStr ver from by simp [revStr]]
    cases ver with
    | none =>
      rw [show joinSep '/' segs ++ verStr none = joinSep '/' segs from by simp [verStr]]
      rw [hs2 rfl rfl]
    | some v =>
      have hv := strictVer_valid v hver
      rw [show verStr (some v) = '@' :: v from rfl]
      apply revSplit_pass
      · intro hm
        rcases List.mem_append.mp hm with h | h
        · exact not_in_joinPath segs hsegs '?' (by decide) (by decide) h
        · rcases List.mem_cons.mp h with h2 | h2
          · cases h2
          · exact not_mem_of_all isAlnumA '?' v hv.2.2 (by decide) h2
      · intro hm
        rcases List.mem_append.mp hm with h | h
        · exact not_in_joinPath segs hsegs '\n' (by decide) (by decide) h
        · rcases List.mem_cons.mp h with h2 | h2
          · cases h2
          · exact not_mem_of_all isAlnumA '\n' v hv.2.2 (by decide) h2
      · intro pre frag hr
        have hmap : rsplitV (joinSep '/' segs ++ '@' :: v) =
            (rsplitV (joinSep '/' segs)).map (fun p => (p.1, p.2 ++ '@' :: v)) :=
          rsplitV_append_none _ _
            (by
              intro hm
              rcases List.mem_cons.mp hm with h2 | h2
              · cases h2
              · exact not_mem_of_all isAlnumA '/' v hv.2.2 (by decide) h2)
            (by
              intro h2
              rw [show ('@' :: v).head? = some '@' from rfl] at h2
              simp at h2)
        rw [hmap] at hr
        cases hP : rsplitV (joinSep '/' segs) with
        | none => rw [hP] at hr; cases hr
        | some p =>
          rw [hP] at hr
          rw [show (some p).map (fun p => (p.1, p.2 ++ '@' :: v)) =
            some (p.1, p.2 ++ '@' :: v) from rfl] at hr
          injection hr with hr1
          have hfrag : p.2 ++ '@' :: v = frag := congrArg Prod.snd hr1
          rintro ⟨hne, hall⟩
          have hatm : '@' ∈ frag := by
            rw [← hfrag]
            simp
          have := List.all_eq_true.mp hall '@' hatm
          exact absurd this (by decide)

/-- The version stage on the path-plus-version remainder returns exactly
the serialized version. -/
theorem ver_stage (segs : List Str) (ver : Option Str)
    (hsegs : segs.all strictSeg = true)
    (hver : optAll strictVer ver = true) :
    verSplit (joinSep '/' segs ++ verStr ver) true = .ok (ver, joinSep '/' segs) := by
  cases ver with
  | some v =>
    rw [show verStr (some v) = '@' :: v from rfl]
    exact verSplit_marker (joinSep '/' segs) v hver
  | none =>
    rw [show joinSep '/' segs ++ verStr none = joinSep '/' segs from by simp [verStr]]
    exact verSplit_no_at _ (not_in_joinPath segs hsegs '@' (by decide) (by decide)) true

/-- The parser as a pipeline: given the result of every stage, the final
`Moniker` assembles the stage outputs. -/
theorem parseMoniker_pipeline (s : Str) (validate : Bool) (body qs r1 r2 r3 : Str)
    (nsv vv : Option Str) (rv : Option Int) (p : MonikerPath) (prm : List (Str × Str))
    (h0 : s.isEmpty = false)
    (h1 : schemeSplit (pyStrip s) = .ok (body, qs))
    (h2 : nsSplit body validate = .ok (nsv, r1))
    (h3 : revSplit r1 = (rv, r2))
    (h4 : verSplit r2 validate = .ok (vv, r3))
    (h5 : parsePath r3 validate = .ok p)
    (h6 : (if qs.isEmpty then [] else parseQsFirst qs) = prm) :
    parseMoniker s validate = .ok ⟨p, nsv, vv, rv, prm⟩ := by
  unfold parseMoniker
  rw [if_neg (by simp [h0])]
  show (match schemeSplit (pyStrip s) with
    | .error e => .error e
    | .ok bq =>
      match nsSplit bq.1 validate with
      | .error e => .error e
      | .ok nr =>
        match verSplit (revSplit nr.2).2 validate with
        | .error e => .error e
        | .ok vr =>
          match parsePath vr.2 validate with
          | .error e => .error e
          | .ok p2 =>
            Except.ok (Moniker.mk p2 nr.1 vr.1 (revSplit nr.2).1
              (if bq.2.isEmpty then [] else parseQsFirst bq.2))) =
    Except.ok ⟨p, nsv, vv, rv, prm⟩
  rw [h1]
  show (match nsSplit body validate with
    | .error e => .error e
    | .ok nr =>
      match verSplit (revSplit nr.2).2 validate with
      | .error e => .error e
      | .ok vr =>
        match parsePath vr.2 validate with
        | .error e => .error e
        | .ok p2 =>
          Except.ok (Moniker.mk p2 nr.1 vr.1 (revSplit nr.2).1
            (if qs.isEmpty then [] else parseQsFirst qs))) =
    Except.ok ⟨p, nsv, vv, rv, prm⟩
  rw [h2]
  show (match verSplit (revSplit r1).2 validate with
    | .error e => .error e
    | .ok vr =>
      match parsePath vr.2 validate with
      | .error e => .error e
      | .ok p2 =>
        Except.ok (Moniker.mk p2 nsv vr.1 (revSplit r1).1
          (if qs.isEmpty then [] else parseQsFirst qs))) =
    Except.ok ⟨p, nsv, vv, rv, prm⟩
  rw [h3]
  show (match verSplit r2 validate with
    | .error e => .error e
    | .ok vr =>
      match parsePath vr.2 validate with
      | .error e => .error e
      | .ok p2 =>
        Except.ok (Moniker.mk p2 nsv vr.1 rv
          (if qs.isEmpty then [] else parseQsFirst qs))) =
    Except.ok ⟨p, nsv, vv, rv, prm⟩
  rw [h4]
  show (match parsePath r3 validate with
    | .error e => .error e
    | .ok p2 =>
      Except.ok (Moniker.mk p2 nsv vv rv
        (if qs.isEmpty then [] else parseQsFirst qs))) =
    Except.ok ⟨p, nsv, vv, rv, prm⟩
  rw [h5]
  show Except.ok (Moniker.mk p nsv vv rv (if qs.isEmpty then [] else parseQsFirst qs)) =
    Except.ok ⟨p, nsv, vv, rv, prm⟩
  rw [h6]

/-- The scheme prefix contains no whitespace. -/
theorem pref_no_ws : ∀ c ∈ chars "moniker://", isSpacePy c = false := by decide

/-- Parsing the serialization of a strict moniker returns the moniker
unchanged: the central round-trip lemma.  The structural hypotheses rule
out the two genuinely ambiguous serializations: a version with at most one
path segment and no namespace (its `@` would be read as a namespace
marker), and a path whose own text ends in a digit-run `/v...` with no
version and no revision (it would be read back as a revision). -/
theorem roundtrip_parts (segs : List Str) (ns ver : Option Str) (rev : Option Int)
    (prs : List (Str × Str))
    (hsegs : segs.all strictSeg = true)
    (hns : optAll strictNs ns = true)
    (hver : optAll strictVer ver = true)
    (hrev : optAll (fun r => decide (0 ≤ r)) rev = true)
    (hpar : prs.all (fun pr => pr.1.all qsChar && pr.2.all qsChar) = true)
    (hnd : (prs.map Prod.fst).Nodup)
    (hs1 : ver ≠ none → ns = none → 2 ≤ segs.length)
    (hs2 : ver = none → rev = none →
      revSplit (joinSep '/' segs) = (none, joinSep '/' segs)) :
    parseMoniker (monikerStr ⟨⟨segs⟩, ns, ver, rev, prs⟩) true =
      .ok ⟨⟨segs⟩, ns, ver, rev, prs⟩ := by
  have hBall := base_chars segs ns ver rev hsegs hns hver
  have hqB : '?' ∉ nsStr ns ++ (joinSep '/' segs ++ (verStr ver ++ revStr rev)) :=
    fun hm => (baseChar_facts _ (hBall _ hm)).2.2.2.2 rfl
  have h2 := ns_stage segs ns ver rev hsegs hns hver hs1
  have h3 := rev_stage segs ver rev hsegs hver hrev hs2
  have h4 := ver_stage segs ver hsegs hver
  have h5 := parsePath_join segs (List.all_eq_true.mp hsegs)
  have hshape := monikerStr_shape segs ns ver rev prs hns hver hrev
  cases prs with
  | nil =>
    rw [show (if ([] : List (Str × Str)).isEmpty then ([] : Str)
        else '?' :: joinSep '&' (([] : List (Str × Str)).map pairStr)) = [] from rfl,
      List.append_nil] at hshape
    have hEok : ∀ c ∈ nsStr ns ++ (joinSep '/' segs ++ (verStr ver ++ revStr rev)),
        isSpacePy c = false ∧ c ≠ '#' ∧ c ≠ '[' ∧ c ≠ ']' := by
      intro c hc
      obtain ⟨f1, f2, f3, f4, f5⟩ := baseChar_facts c (hBall c hc)
      exact ⟨f1, f2, f3, f4⟩
    have h0 : (monikerStr ⟨⟨segs⟩, ns, ver, rev, []⟩).isEmpty = false := by
      rw [hshape]
      rfl
    have hstripB : pyStrip (chars "moniker://" ++
        (nsStr ns ++ (joinSep '/' segs ++ (verStr ver ++ revStr rev)))) =
        chars "moniker://" ++
          (nsStr ns ++ (joinSep '/' segs ++ (verStr ver ++ revStr rev))) := by
      apply pyStripWith_eq_self
      · intro x hx
        rw [show (chars "moniker://" ++ (nsStr ns ++ (joinSep '/' segs ++
          (verStr ver ++ revStr rev)))).head? = some 'm' from rfl] at hx
        injection hx with h
        rw [← h]
        decide
      · intro x hx
        have hmem := mem_of_getLast? hx
        rcases List.mem_append.mp hmem with h | h
        · exact pref_no_ws x h
        · exact (hEok x h).1
    have h1 : schemeSplit (pyStrip (monikerStr ⟨⟨segs⟩, ns, ver, rev, []⟩)) =
        .ok (nsStr ns ++ (joinSep '/' segs ++ (verStr ver ++ revStr rev)), []) := by
      rw [hshape, hstripB,
        schemeSplit_clean _ (fun hm => (hEok _ hm).2.1 rfl)
          (fun hm => (hEok _ hm).2.2.1 rfl)
          (fun hm => (hEok _ hm).2.2.2 rfl)
          (fun c hc => no_ws_no_tab c (hEok c hc).1),
        splitFirst_eq_none _ '?' hqB]
    exact parseMoniker_pipeline _ true _ [] _ _ _ ns ver rev ⟨segs⟩ []
      h0 h1 h2 h3 h4 h5 rfl
  | cons q qt =>
    have hQall := query_chars (q :: qt) hpar
    rw [show (if ((q :: qt) : List (Str × Str)).isEmpty then ([] : Str)
        else '?' :: joinSep '&' ((q :: qt).map pairStr)) =
        '?' :: joinSep '&' ((q :: qt).map pairStr) from rfl] at hshape
    have hEok : ∀ c ∈ (nsStr ns ++ (joinSep '/' segs ++ (verStr ver ++ revStr rev))) ++
        '?' :: joinSep '&' ((q :: qt).map pairStr),
        isSpacePy c = false ∧ c ≠ '#' ∧ c ≠ '[' ∧ c ≠ ']' := by
      intro c hc
      rcases List.mem_append.mp hc with h | h
      · obtain ⟨f1, f2, f3, f4, f5⟩ := baseChar_facts c (hBall c h)
        exact ⟨f1, f2, f3, f4⟩
      · rcases List.mem_cons.mp h with rfl | h2
        · exact ⟨by decide, by decide, by decide, by decide⟩
        · exact queryChar_facts c (hQall c h2)
    have h0 : (monikerStr ⟨⟨segs⟩, ns, ver, rev, q :: qt⟩).isEmpty = false := by
      rw [hshape]
      rfl
    have hstripB : pyStrip (chars "moniker://" ++
        ((nsStr ns ++ (joinSep '/' segs ++ (verStr ver ++ revStr rev))) ++
          '?' :: joinSep '&' ((q :: qt).map pairStr))) =
        chars "moniker://" ++
          ((nsStr ns ++ (joinSep '/' segs ++ (verStr ver ++ revStr rev))) ++
            '?' :: joinSep '&' ((q :: qt).map pairStr)) := by
      apply pyStripWith_eq_self
      · intro x hx
        rw [show (chars "moniker://" ++
          ((nsStr ns ++ (joinSep '/' segs ++ (verStr ver ++ revStr rev))) ++
            '?' :: joinSep '&' ((q :: qt).map pairStr))).head? = some 'm' from rfl] at hx
        injection hx with h
        rw [← h]
        decide
      · intro x hx
        have hmem := mem_of_getLast? hx
        rcases List.mem_append.mp hmem with h | h
        · exact pref_no_ws x h
        · exact (hEok x h).1
    have hsf : splitFirst '?'
        ((nsStr ns ++ (joinSep '/' segs ++ (verStr ver ++ revStr rev))) ++
          '?' :: joinSep '&' ((q :: qt).map pairStr)) =
        some (nsStr ns ++ (joinSep '/' segs ++ (verStr ver ++ revStr rev)),
          joinSep '&' ((q :: qt).map pairStr)) := by
      rw [splitFirst_append_left _ _ '?' hqB,
        show splitFirst '?' ('?' :: joinSep '&' ((q :: qt).map pairStr)) =
          some ([], joinSep '&' ((q :: qt).map pairStr)) from by simp [splitFirst]]
      simp
    have h1 : schemeSplit (pyStrip (monikerStr ⟨⟨segs⟩, ns, ver, rev, q :: qt⟩)) =
        .ok (nsStr ns ++ (joinSep '/' segs ++ (verStr ver ++ revStr rev)),
          joinSep '&' ((q :: qt).map pairStr)) := by
      rw [hshape, hstripB,
        schemeSplit_clean _ (fun hm => (hEok _ hm).2.1 rfl)
          (fun hm => (hEok _ hm).2.2.1 rfl)
          (fun hm => (hEok _ hm).2.2.2 rfl)
          (fun c hc => no_ws_no_tab c (hEok c hc).1),
        hsf]
    have h6 : (if (joinSep '&' ((q :: qt).map pairStr)).isEmpty then []
        else parseQsFirst (joinSep '&' ((q :: qt).map pairStr))) = q :: qt := by
      have hQne : joinSep '&' ((q :: qt).map pairStr) ≠ [] :=
        joinSep_ne_nil '&' _ (by simp) (by
          intro p hp
          obtain ⟨pr, hpr, rfl⟩ := List.mem_map.mp hp
          exact pairStr_ne_nil pr)
      rw [if_neg (by simpa using hQne),
        parseQsFirst_join (q :: qt) (by simp)
          (by
            intro pr hpr
            have hb := List.all_eq_true.mp hpar pr hpr
            simp only [Bool.and_eq_true] at hb
            exact hb)
          hnd]
    exact parseMoniker_pipeline _ true _ _ _ _ _ ns ver rev ⟨segs⟩ (q :: qt)
      h0 h1 h2 h3 h4 h5 h6

/-! ## Claim C6 (Ownership merge) -/

/-- C6 counterexample: a child slot holding the empty string is set (not
`None`), yet Python `or` lets the parent override it — the merged
`accountable_owner` is the parent's value, not the child's. -/
theorem c6_counterexample :
    Ownership.merge_with_parent ⟨some [], none, none, none, none, none⟩
        ⟨some (chars "A"), none, none, none, none, none⟩ =
      ⟨some (chars "A"), none, none, none, none, none⟩ := by decide

/-- C6 (amended): `merge_with_parent` keeps each of the six fields of the
child exactly when that field is truthy (set and non-empty); otherwise the
parent's field is taken — independently per field.  An empty-string slot
counts as unset, unlike what the claim's notion of "set" suggests. -/
theorem c6_merge_fieldwise (o p : Ownership) :
    (o.merge_with_parent p).accountable_owner =
        (if isTruthyStr o.accountable_owner then o.accountable_owner else p.accountable_owner) ∧
    (o.merge_with_parent p).data_specialist =
        (if isTruthyStr o.data_specialist then o.data_specialist else p.data_specialist) ∧
    (o.merge_with_parent p).support_channel =
        (if isTruthyStr o.support_channel then o.support_channel else p.support_channel) ∧
    (o.merge_with_parent p).adop = (if isTruthyStr o.adop then o.adop else p.adop) ∧
    (o.merge_with_parent p).ads = (if isTruthyStr o.ads then o.ads else p.ads) ∧
    (o.merge_with_parent p).adal = (if isTruthyStr o.adal then o.adal else p.adal) :=
  ⟨pyOrStr_eq _ _, pyOrStr_eq _ _, pyOrStr_eq _ _, pyOrStr_eq _ _, pyOrStr_eq _ _,
    pyOrStr_eq _ _⟩

/-! ## Claim C7 (Oracle lookback mapping) -/

/-- C7: `OracleDialect.lookback_start` maps years to `ADD_MONTHS` with the
value times 12, months to `ADD_MONTHS` with the value, weeks to `SYSDATE`
minus 7 times the value, days to `SYSDATE` minus the value; in particular
one year back is `ADD_MONTHS(SYSDATE, -12)`. -/
theorem c7_oracle_lookback (value : Int) :
    oracleLookback value (chars "Y") =
        chars "ADD_MONTHS(SYSDATE, -" ++ intStr (12 * value) ++ chars ")" ∧
    oracleLookback value (chars "M") =
        chars "ADD_MONTHS(SYSDATE, -" ++ intStr value ++ chars ")" ∧
    oracleLookback value (chars "W") = chars "SYSDATE - " ++ intStr (7 * value) ∧
    oracleLookback value (chars "D") = chars "SYSDATE - " ++ intStr value ∧
    oracleLookback 1 (chars "Y") = chars "ADD_MONTHS(SYSDATE, -12)" := by
  refine ⟨?_, rfl, ?_, rfl, by decide⟩
  · show chars "ADD_MONTHS(SYSDATE, -" ++ intStr (value * 12) ++ chars ")" = _
    rw [Int.mul_comm]
  · show chars "SYSDATE - " ++ intStr (value * 7) = _
    rw [Int.mul_comm]

/-! ## Claim C8 (lenient unit fallback) -/

/-- C8 counterexample: the REST dialect's day arithmetic is real calendar
arithmetic and raises (`OverflowError`, modelled as `none`) when the result
leaves Python's date range — here 4000000 days before 2026-10-12 with the
unrecognized unit `X`, an input on which the claim asserts no dialect
raises (the shift exceeds the whole 1..9999 year range, so this raises for
every possible value of `date.today()`). -/
theorem c8_counterexample :
    restLookback ⟨2026, 10, 12⟩ 4000000 (chars "X") = none ∧
    validYmd ⟨2026, 10, 12⟩ = true := by decide

/-- C8 (amended): for a unit not in Y/M/W/D (after upcasing), no dialect
inspects the unit further: for every integer magnitude, Snowflake emits
the DAY-unit `DATEADD` and Oracle emits `SYSDATE` minus the value (these
two never raise); REST computes today minus the value in days, returning
the ISO date when the shifted ordinal stays inside Python's date range and
raising (`none`) otherwise — as the counterexample shows for 4000000. -/
theorem c8_lenient_units (value : Int) (unit : Str) (today : PyDate)
    (hY : upperPy unit ≠ chars "Y") (hM : upperPy unit ≠ chars "M")
    (hW : upperPy unit ≠ chars "W") (hD : upperPy unit ≠ chars "D") :
    snowflakeLookback value unit =
        chars "DATEADD('DAY', -" ++ intStr value ++ chars ", CURRENT_DATE())" ∧
    oracleLookback value unit = chars "SYSDATE - " ++ intStr value ∧
    restLookback today value unit =
      (if 1 ≤ toOrd today - value ∧ toOrd today - value ≤ maxOrd
        then some (isoFmt (fromOrd (toOrd today - value))) else none) := by
  refine ⟨?_, ?_, ?_⟩
  · simp only [snowflakeLookback]
    rw [if_neg hY, if_neg hM, if_neg hW, if_neg hD]
    rfl
  · simp only [oracleLookback]
    rw [if_neg hY, if_neg hM, if_neg hW]
  · simp only [restLookback]
    rw [if_neg hY, if_neg hM, if_neg hW]
    simp only [ordShift]
    by_cases hin : 1 ≤ toOrd today - value ∧ toOrd today - value ≤ maxOrd
    · rw [if_pos hin, if_pos hin]
      rfl
    · rw [if_neg hin, if_neg hin]
      rfl

/-- C8 witness: the amended theorem applied twice at unit `q` and today
2026-10-12 — value 5 (in range) and value 4000000 (out of range). -/
theorem c8_lenient_units_witness :
    (snowflakeLookback 5 (chars "q") =
        chars "DATEADD('DAY', -" ++ intStr 5 ++ chars ", CURRENT_DATE())" ∧
      oracleLookback 5 (chars "q") = chars "SYSDATE - " ++ intStr 5 ∧
      restLookback ⟨2026, 10, 12⟩ 5 (chars "q") =
        (if 1 ≤ toOrd ⟨2026, 10, 12⟩ - 5 ∧ toOrd ⟨2026, 10, 12⟩ - 5 ≤ maxOrd
          then some (isoFmt (fromOrd (toOrd ⟨2026, 10, 12⟩ - 5))) else none)) ∧
    (snowflakeLookback 4000000 (chars "q") =
        chars "DATEADD('DAY', -" ++ intStr 4000000 ++ chars ", CURRENT_DATE())" ∧
      oracleLookback 4000000 (chars "q") = chars "SYSDATE - " ++ intStr 4000000 ∧
      restLookback ⟨2026, 10, 12⟩ 4000000 (chars "q") =
        (if 1 ≤ toOrd ⟨2026, 10, 12⟩ - 4000000 ∧
            toOrd ⟨2026, 10, 12⟩ - 4000000 ≤ maxOrd
          then some (isoFmt (fromOrd (toOrd ⟨2026, 10, 12⟩ - 4000000))) else none)) :=
  ⟨c8_lenient_units 5 (chars "q") ⟨2026, 10, 12⟩ (by decide) (by decide) (by decide)
      (by decide),
    c8_lenient_units 4000000 (chars "q") ⟨2026, 10, 12⟩ (by decide) (by decide)
      (by decide) (by decide)⟩

/-! ## Claim C5 (builder validation) -/

/-- C5 counterexample: `build_moniker` happily returns a `Moniker` whose
namespace `1bad` violates the namespace grammar — no `ParseError` is
raised for a non-path component. -/
theorem c5_counterexample :
    buildMoniker (chars "a") (some (chars "1bad")) none none [] =
      .ok ⟨⟨[chars "a"]⟩, some (chars "1bad"), none, none, []⟩ ∧
    validateNamespace (chars "1bad") = false := by decide

/-- C5 (amended): `build_moniker` applies grammar validation only to the
path: on success every path segment is grammar-valid and the namespace,
version, revision and parameters are stored exactly as passed, unvalidated;
and a path whose cleaned form contains an invalid segment raises. -/
theorem c5_build_validates_path_only :
    (∀ path ns ver rev params m, buildMoniker path ns ver rev params = .ok m →
      m.nspace = ns ∧ m.version = ver ∧ m.revision = rev ∧ m.params = params ∧
        ∀ seg ∈ m.path.segments, validateSegment seg = true) ∧
    (∀ path ns ver rev params, ¬path.isEmpty = true → path ≠ ['/'] →
      ¬(stripSlash path).isEmpty = true →
      (∃ g ∈ splitOnChar '/' (stripSlash path), validateSegment g = false) →
      ∃ e, buildMoniker path ns ver rev params = .error e) := by
  constructor
  · intro path ns ver rev params m h
    unfold buildMoniker at h
    cases hp : parsePath path true with
    | error e => rw [hp] at h; cases h
    | ok p =>
      rw [hp] at h
      cases h
      exact ⟨rfl, rfl, rfl, rfl, parsePath_ok_valid path p hp⟩
  · intro path ns ver rev params h1 h2 h3 h4
    unfold buildMoniker parsePath
    rw [if_neg (by simp [h1, h2]), if_neg h3]
    obtain ⟨g, hg, hbad⟩ := h4
    have : (splitOnChar '/' (stripSlash path)).find? (fun g => !validateSegment g) ≠ none := by
      intro hnone
      have := List.find?_eq_none.mp hnone g hg
      simp [hbad] at this
    cases hf : (splitOnChar '/' (stripSlash path)).find? (fun g => !validateSegment g) with
    | none => exact absurd hf this
    | some bad => exact ⟨_, rfl⟩

/-- C5 witness: both parts of the amended theorem at concrete inputs —
the pass-through with an unvalidated namespace, and the path error. -/
theorem c5_build_validates_path_only_witness :
    ((⟨⟨[chars "a"]⟩, some (chars "1bad"), none, none, []⟩ : Moniker).nspace =
        some (chars "1bad") ∧
      (⟨⟨[chars "a"]⟩, some (chars "1bad"), none, none, []⟩ : Moniker).version = none ∧
      (⟨⟨[chars "a"]⟩, some (chars "1bad"), none, none, []⟩ : Moniker).revision = none ∧
      (⟨⟨[chars "a"]⟩, some (chars "1bad"), none, none, []⟩ : Moniker).params = [] ∧
      ∀ seg ∈ (⟨⟨[chars "a"]⟩, some (chars "1bad"), none, none, []⟩ : Moniker).path.segments,
        validateSegment seg = true) ∧
    ∃ e, buildMoniker (chars "a//b") none none none [] = .error e := by
  constructor
  · exact c5_build_validates_path_only.1 (chars "a") (some (chars "1bad")) none none []
      _ (by decide)
  · exact c5_build_validates_path_only.2 (chars "a//b") none none none []
      (by decide) (by decide) (by decide) ⟨[], by decide⟩

/-! ## Claim C2 (namespace disambiguation) -/

/-- C2: the namespace guard holds exactly when the body has an `@` whose
first occurrence is strictly before the first `/`, or the body has no `/`;
when it holds the namespace is exactly the text before that `@` and
parsing continues after it (unconditionally without validation, and with
validation whenever the namespace text is grammatical); when it fails no
namespace is assigned.  End to end, `a@b/c` parses with namespace `a` and
`a/b@c` parses with no namespace and version `c`. -/
theorem c2_namespace_rule :
    (∀ fa fs : Option Nat, nsCondHolds fa fs = true ↔
      ∃ a, fa = some a ∧ (fs = none ∨ ∃ j, fs = some j ∧ a < j)) ∧
    (∀ body a, pyFindChar body '@' = some a →
      nsCondHolds (pyFindChar body '@') (pyFindChar body '/') = true →
      ∀ validate, (validate = false ∨ validateNamespace (body.take a) = true) →
        nsSplit body validate = .ok (some (body.take a), body.drop (a + 1))) ∧
    (∀ body validate, nsCondHolds (pyFindChar body '@') (pyFindChar body '/') = false →
      nsSplit body validate = .ok (none, body)) ∧
    parseMoniker (chars "a@b/c") true =
      .ok ⟨⟨[chars "b", chars "c"]⟩, some (chars "a"), none, none, []⟩ ∧
    parseMoniker (chars "a/b@c") true =
      .ok ⟨⟨[chars "a", chars "b"]⟩, none, some (chars "c"), none, []⟩ := by
  refine ⟨?_, ?_, ?_, by decide, by decide⟩
  · intro fa fs
    cases fa <;> cases fs <;> simp [nsCondHolds]
  · intro body a ha hc validate hv
    have hc2 : nsCondHolds (some a) (pyFindChar body '/') = true := by
      rw [← ha]
      exact hc
    simp only [nsSplit, ha, hc2, if_true]
    rcases hv with rfl | hvn
    · simp
    · simp [hvn]
  · intro body validate hc
    simp [nsSplit, hc]

/-- C2 witness: the namespace branch applied to `x@y` (not validating) and
the no-namespace branch applied to `x/y@z`. -/
theorem c2_namespace_rule_witness :
    nsSplit (chars "x@y") false =
      .ok (some ((chars "x@y").take 1), (chars "x@y").drop 2) ∧
    nsSplit (chars "x/y@z") true = .ok (none, chars "x/y@z") := by
  constructor
  · exact c2_namespace_rule.2.1 (chars "x@y") 1 (by decide) (by decide) false (Or.inl rfl)
  · exact c2_namespace_rule.2.2.1 (chars "x/y@z") true (by decide)

/-! ## Claim C3 (revision stripping) -/

/-- C3 counterexample: with the fragment `12` followed by a newline — all
digits neither up to end-of-string nor up to a `?` — the parser still
assigns revision 12 (Python's `$` matches before a final newline), rather
than leaving `/v12\n` as path content. -/
theorem c3_counterexample :
    rsplitV (chars "a/v12\n") = some (chars "a", chars "12\n") ∧
    (chars "12\n").all isDigitA = false ∧
    (chars "12\n").contains '?' = false ∧
    parseMoniker (chars "a/v12\n?x=1") true =
      .ok ⟨⟨[chars "a"]⟩, none, none, some 12, [(chars "x", chars "1")]⟩ := by decide

/-- C3 (amended): the revision step splits at the last `/v`; the fragment
becomes the integer revision iff it is a nonempty digit run followed by
end-of-string, by a `?`, or by a single trailing newline (Python `$`);
otherwise the input is left unchanged.  End to end, `a/v2` has revision 2
and path `a`, while `a/vx` has no revision and path `a/vx`. -/
theorem c3_revision_rule :
    (∀ r, rsplitV r = none → revSplit r = (none, r)) ∧
    (∀ r pre frag, rsplitV r = some (pre, frag) →
      (revFragSpec frag →
        revSplit r = (some ((natOfDigits (frag.takeWhile isDigitA) : Nat) : Int), pre)) ∧
      (¬revFragSpec frag → revSplit r = (none, r))) ∧
    parseMoniker (chars "a/v2") true = .ok ⟨⟨[chars "a"]⟩, none, none, some 2, []⟩ ∧
    parseMoniker (chars "a/vx") true =
      .ok ⟨⟨[chars "a", chars "vx"]⟩, none, none, none, []⟩ := by
  refine ⟨?_, ?_, by decide, by decide⟩
  · intro r h
    simp [revSplit, h]
  · intro r pre frag h
    constructor
    · intro hs
      simp [revSplit, h, (revMatch_spec frag).1 hs]
    · intro hs
      simp [revSplit, h, (revMatch_spec frag).2 hs]

/-- C3 witness: both branches of the revision rule at concrete inputs. -/
theorem c3_revision_rule_witness :
    revSplit (chars "abc") = (none, chars "abc") ∧
    revSplit (chars "a/v7") =
      (some ((natOfDigits ((chars "7").takeWhile isDigitA) : Nat) : Int), chars "a") ∧
    revSplit (chars "a/vq") = (none, chars "a/vq") := by
  refine ⟨c3_revision_rule.1 (chars "abc") (by decide), ?_, ?_⟩
  · exact ((c3_revision_rule.2.1 (chars "a/v7") (chars "a") (chars "7")
      (by decide)).1 ⟨chars "7", [], by decide, by decide, by decide, Or.inl rfl⟩)
  · refine (c3_revision_rule.2.1 (chars "a/vq") (chars "a") (chars "q") (by decide)).2 ?_
    rintro ⟨d, rest, heq, hne, hd, hr⟩
    cases d with
    | nil => exact hne rfl
    | cons x xs =>
      have h2 : ['q'] = x :: (xs ++ rest) := heq
      injection h2 with h2a h2b
      rw [← h2a] at hd
      simp only [List.all_cons, Bool.and_eq_true] at hd
      exact absurd hd.1 (by decide)

/-! ## Claim C4 (version grammar rejection) -/

/-- A successful `rfind` implies membership. -/
theorem pyRfindChar_some_mem (l : Str) (c : Char) (i : Nat)
    (h : pyRfindChar l c = some i) : l.contains c = true := by
  induction l generalizing i with
  | nil => cases h
  | cons a t ih =>
    unfold pyRfindChar at h
    cases hr : pyRfindChar t c with
    | some j =>
      have ht := ih j hr
      rw [List.contains_cons, ht]
      simp
    | none =>
      rw [hr] at h
      by_cases ha : a = c
      · rw [List.contains_cons]
        simp [ha]
      · rw [if_neg ha] at h
        cases h

/-- C4 counterexample: `a/b@` has a version-position `@` whose following
text is empty — not a non-empty alphanumeric run, and failing the version
grammar — yet `parse_moniker` with validation accepts it, storing the
empty string as version (the `if validate and version and ...` guard skips
validation of empty versions). -/
theorem c4_counterexample :
    versionMatch [] = false ∧
    parseMoniker (chars "a/b@") true =
      .ok ⟨⟨[chars "a", chars "b"]⟩, none, some [], none, []⟩ := by decide

/-- C4 (amended): when the remainder after scheme/query splitting,
namespace extraction and revision stripping contains an `@` whose last
occurrence is after the last `/`, and the text after that `@` is non-empty
and fails the version pattern (an alphanumeric run, with Python's
tolerance of one trailing newline), validated parsing raises; an empty
version text is accepted instead of raising. -/
theorem c4_version_grammar (s body q : Str) (ns : Option Str) (r1 : Str)
    (rev : Option Int) (r2 : Str) (ai : Nat)
    (h0 : s ≠ [])
    (h1 : schemeSplit (pyStrip s) = .ok (body, q))
    (h2 : nsSplit body true = .ok (ns, r1))
    (h3 : revSplit r1 = (rev, r2))
    (h4 : pyRfindChar r2 '@' = some ai)
    (h5 : verCondHolds ai (pyRfindChar r2 '/') = true)
    (h6 : r2.drop (ai + 1) ≠ [])
    (h7 : versionMatch (r2.drop (ai + 1)) = false) :
    parseMoniker s true = .error (chars "Invalid version: " ++ r2.drop (ai + 1)) := by
  unfold parseMoniker
  rw [if_neg (by simpa using h0)]
  simp only [h1, h2, h3]
  have hver : verSplit r2 true = .error (chars "Invalid version: " ++ r2.drop (ai + 1)) := by
    have hv1 : (List.drop (ai + 1) r2).isEmpty = false := by simpa using h6
    unfold verSplit
    rw [if_pos (pyRfindChar_some_mem r2 '@' ai h4)]
    simp [h4, h5, hv1, h7]
  simp only [hver]

/-- C4 witness: the amended theorem applied to the input `a/b@x!`. -/
theorem c4_version_grammar_witness :
    parseMoniker (chars "a/b@x!") true =
      .error (chars "Invalid version: " ++ (chars "a/b@x!").drop 4) :=
  c4_version_grammar (chars "a/b@x!") (chars "a/b@x!") [] none (chars "a/b@x!")
    none (chars "a/b@x!") 3 (by decide) (by decide) (by decide) (by decide)
    (by decide) (by decide) (by decide) (by decide)

/-! ## Claim C10 (empty-body acceptance) -/

/-- C10: only the literally empty string raises the empty-moniker error;
any non-empty input whose body comes out empty after stripping and
scheme/query splitting is accepted with the zero-segment root path and its
query parameters attached — in particular a whitespace-only string (ASCII
space or no-break space, both stripped by Python), a bare query (also with
a stripped no-break-space value), and exactly `moniker://`. -/
theorem c10_empty_body :
    parseMoniker [] true = .error (chars "Empty moniker string") ∧
    (∀ s q, s ≠ [] → schemeSplit (pyStrip s) = .ok ([], q) →
      parseMoniker s true =
        .ok ⟨⟨[]⟩, none, none, none, if q.isEmpty then [] else parseQsFirst q⟩) ∧
    parseMoniker (chars " ") true = .ok ⟨⟨[]⟩, none, none, none, []⟩ ∧
    parseMoniker (chars "\u00A0") true = .ok ⟨⟨[]⟩, none, none, none, []⟩ ∧
    parseMoniker (chars "?a=1") true = .ok ⟨⟨[]⟩, none, none, none, [(chars "a", chars "1")]⟩ ∧
    parseMoniker (chars "?a=\u00A0") true = .ok ⟨⟨[]⟩, none, none, none, [(chars "a", [])]⟩ ∧
    parseMoniker (chars "moniker://") true = .ok ⟨⟨[]⟩, none, none, none, []⟩ := by
  refine ⟨rfl, ?_, by decide, by decide, by decide, by decide, by decide⟩
  intro s q hs hss
  unfold parseMoniker
  rw [if_neg (by simpa using hs)]
  simp only [hss]
  rfl

/-- C10 witness: the general clause applied to the concrete input `?`,
whose body is empty with an empty query. -/
theorem c10_empty_body_witness :
    parseMoniker (chars "?") true = .ok ⟨⟨[]⟩, none, none, none, []⟩ := by
  have h := c10_empty_body.2.1 (chars "?") [] (by decide) (by decide)
  simpa using h

/-! ## Claim C1 (build/serialize/parse round-trip) -/

/-- C1 counterexample: `build_moniker("a/v2")` stores the two path
segments `a` and `v2`, serializes to `moniker://a/v2`, but parsing that
string back reads `/v2` as revision 2 over the one-segment path `a` — the
round trip does not return an equal `Moniker`. -/
theorem c1_counterexample :
    buildMoniker (chars "a/v2") none none none [] =
      .ok ⟨⟨[chars "a", chars "v2"]⟩, none, none, none, []⟩ ∧
    monikerStr ⟨⟨[chars "a", chars "v2"]⟩, none, none, none, []⟩ =
      chars "moniker://a/v2" ∧
    parseMoniker (chars "moniker://a/v2") true =
      .ok ⟨⟨[chars "a"]⟩, none, none, some 2, []⟩ ∧
    (⟨⟨[chars "a"]⟩, none, none, some 2, []⟩ : Moniker) ≠
      ⟨⟨[chars "a", chars "v2"]⟩, none, none, none, []⟩ := by decide

/-- C1 (amended): the round trip `parse(str(m)) = m` holds for every
`Moniker` that `build_moniker` returns whose components are strictly
grammatical (segments, namespace and version without the trailing-newline
tolerance, nonnegative revision, query keys and values made of query-safe
characters with distinct keys) and which avoids the two ambiguous
serializations: a version needs either a namespace or at least two path
segments (else its `@` reparses as a namespace marker), and without a
version and revision the serialized path must not itself end in a digit-run
`/v...` (else it reparses as a revision) — as the counterexample shows,
`build_moniker` alone does not guarantee the round trip. -/
theorem c1_build_roundtrip (path : Str) (ns ver : Option Str) (rev : Option Int)
    (prs : List (Str × Str)) (m : Moniker)
    (hb : buildMoniker path ns ver rev prs = .ok m)
    (hsegs : m.path.segments.all strictSeg = true)
    (hns : optAll strictNs ns = true)
    (hver : optAll strictVer ver = true)
    (hrev : optAll (fun r => decide (0 ≤ r)) rev = true)
    (hpar : prs.all (fun pr => pr.1.all qsChar && pr.2.all qsChar) = true)
    (hnd : (prs.map Prod.fst).Nodup)
    (hs1 : ver ≠ none → ns = none → 2 ≤ m.path.segments.length)
    (hs2 : ver = none → rev = none →
      revSplit (joinSep '/' m.path.segments) =
        (none, joinSep '/' m.path.segments)) :
    parseMoniker (monikerStr m) true = .ok m := by
  unfold buildMoniker at hb
  cases hp : parsePath path true with
  | error e => rw [hp] at hb; cases hb
  | ok p =>
    rw [hp] at hb
    cases hb
    obtain ⟨segs⟩ := p
    exact roundtrip_parts segs ns ver rev prs hsegs hns hver hrev hpar hnd hs1 hs2

/-- C1 witness: the amended round trip applied to the built moniker
`ns@a/b@20240101/v2?x=1`. -/
theorem c1_build_roundtrip_witness :
    parseMoniker (monikerStr ⟨⟨[chars "a", chars "b"]⟩, some (chars "ns"),
        some (chars "20240101"), some 2, [(chars "x", chars "1")]⟩) true =
      .ok ⟨⟨[chars "a", chars "b"]⟩, some (chars "ns"), some (chars "20240101"),
        some 2, [(chars "x", chars "1")]⟩ :=
  c1_build_roundtrip (chars "a/b") (some (chars "ns")) (some (chars "20240101"))
    (some 2) [(chars "x", chars "1")]
    ⟨⟨[chars "a", chars "b"]⟩, some (chars "ns"), some (chars "20240101"),
      some 2, [(chars "x", chars "1")]⟩
    (by decide) (by decide) (by decide) (by decide) (by decide) (by decide)
    (by decide) (by decide) (by decide)

/-! ## Claim C9 (idempotent normalization) -/

/-- C9 counterexample: normalization is not idempotent on every accepted
input — `a/v007/` normalizes to `moniker://a/v007` (the trailing slash
stops the revision regex, leaving `v007` a path segment), but normalizing
that output re-reads `/v007` as revision 7 and yields `moniker://a/v7`. -/
theorem c9_counterexample :
    normalizeMoniker (chars "a/v007/") = .ok (chars "moniker://a/v007") ∧
    normalizeMoniker (chars "moniker://a/v007") = .ok (chars "moniker://a/v7") ∧
    chars "moniker://a/v007" ≠ chars "moniker://a/v7" := by decide

/-- C9 (amended): for an accepted input whose parsed `Moniker` has strictly
grammatical components (strict segments, namespace and version, nonnegative
revision, query-safe distinct-key parameters) and avoids the ambiguous
serializations (a version comes with a namespace or at least two segments;
without version and revision the serialized path does not end in a
digit-run `/v...`), normalization is idempotent: a second `normalize` of
the canonical output changes nothing. -/
theorem c9_normalize_idempotent (s : Str) (m : Moniker)
    (hp : parseMoniker s true = .ok m)
    (hsegs : m.path.segments.all strictSeg = true)
    (hns : optAll strictNs m.nspace = true)
    (hver : optAll strictVer m.version = true)
    (hrev : optAll (fun r => decide (0 ≤ r)) m.revision = true)
    (hpar : m.params.all (fun pr => pr.1.all qsChar && pr.2.all qsChar) = true)
    (hnd : (m.params.map Prod.fst).Nodup)
    (hs1 : m.version ≠ none → m.nspace = none → 2 ≤ m.path.segments.length)
    (hs2 : m.version = none → m.revision = none →
      revSplit (joinSep '/' m.path.segments) =
        (none, joinSep '/' m.path.segments)) :
    normalizeMoniker s = .ok (monikerStr m) ∧
    normalizeMoniker (monikerStr m) = .ok (monikerStr m) := by
  have hround : parseMoniker (monikerStr m) true = .ok m := by
    obtain ⟨⟨segs⟩, ns, ver, rev, prs⟩ := m
    exact roundtrip_parts segs ns ver rev prs hsegs hns hver hrev hpar hnd hs1 hs2
  constructor
  · unfold normalizeMoniker
    rw [hp]
    rfl
  · unfold normalizeMoniker
    rw [hround]
    rfl

/-- C9 witness: the amended idempotence applied to `a/b@20240101/v2?x=1`
and its parse. -/
theorem c9_normalize_idempotent_witness :
    normalizeMoniker (chars "a/b@20240101/v2?x=1") =
      .ok (monikerStr ⟨⟨[chars "a", chars "b"]⟩, none, some (chars "20240101"),
        some 2, [(chars "x", chars "1")]⟩) ∧
    normalizeMoniker (monikerStr ⟨⟨[chars "a", chars "b"]⟩, none,
        some (chars "20240101"), some 2, [(chars "x", chars "1")]⟩) =
      .ok (monikerStr ⟨⟨[chars "a", chars "b"]⟩, none, some (chars "20240101"),
        some 2, [(chars "x", chars "1")]⟩) :=
  c9_normalize_idempotent (chars "a/b@20240101/v2?x=1")
    ⟨⟨[chars "a", chars "b"]⟩, none, some (chars "20240101"), some 2,
      [(chars "x", chars "1")]⟩
    (by decide) (by decide) (by decide) (by decide) (by decide) (by decide)
    (by decide) (by decide) (by decide)

end MonikerSvc
